import Mathlib

/-
Verification development for the RelatedSources extension core:
the segment-wise glob matcher and directory scanner (findFilesWithGlob.js)
and the transitive related-file resolver (extension module).

Strings are modelled by Lean `String`, directory entries by `[name, fileType]`
pairs as returned by `vscode.workspace.fs.readDirectory`, the external
directory-listing provider by a function returning `none` for a rejected
listing call, and a JS exception escaping a call by a dedicated constructor
carrying the in-place mutations already performed on the shared result array
and cache.
-/

namespace RelSrc

/-- Case folding used by the platform case policy: on win32 (`ci = true`)
comparisons are case-insensitive, modelled by lowercasing each character
(this models both `name.toLowerCase()` and the regex `i` flag); on other
platforms characters compare as they are. -/
def foldChar (ci : Bool) (c : Char) : Char :=
  if ci then c.toLower else c

/-- `hasWildcard(segment)` from findFilesWithGlob.js: `segment.includes(star)`. -/
def hasWildcard (segment : String) : Bool :=
  segment.toList.contains '*'

/-- One token of the regular expression text that `segmentToRegex` hands to
`new RegExp`.  The JS escapes the metacharacters in the class
`[.+^$(){}()|[...]\]` (every special character except `*` and, by omission,
`?`), so after escaping each such character denotes a literal atom; every
other character except `*` and `?` is a literal atom anyway; each `*` was
rewritten to the two-character atom `.STAR`; a bare `?` acts as a quantifier
on the preceding atom.  Laziness does not change acceptance, so lazy
quantifiers share the constructors of their greedy forms. -/
inductive RAtom where
  | lit (c : Char)
  | opt (c : Char)
  | star
deriving DecidableEq

/-- Tokenizer for the anchored pattern built by `segmentToRegex`.  `none`
models the SyntaxError raised by `new RegExp` for a quantifier with nothing
to repeat: a `?` at the start of the segment (it would directly follow the
inserted `^` anchor), or a `?` following an already lazy quantifier.  A `?`
after a literal makes it optional, a second `?` selects the lazy variant. -/
def compileAtoms : List Char → Option (List RAtom)
  | [] => some []
  | '?' :: _ => none
  | '*' :: '?' :: '?' :: _ => none
  | '*' :: '?' :: cs => (compileAtoms cs).map (fun r => RAtom.star :: r)
  | '*' :: cs => (compileAtoms cs).map (fun r => RAtom.star :: r)
  | _ :: '?' :: '?' :: '?' :: _ => none
  | c :: '?' :: '?' :: cs => (compileAtoms cs).map (fun r => RAtom.opt c :: r)
  | c :: '?' :: cs => (compileAtoms cs).map (fun r => RAtom.opt c :: r)
  | c :: cs => (compileAtoms cs).map (fun r => RAtom.lit c :: r)

/-- `segmentToRegex(segment)` from findFilesWithGlob.js, as the token list of
the produced regex; `none` models a SyntaxError escaping from `new RegExp`. -/
def segmentToRegex (segment : String) : Option (List RAtom) :=
  compileAtoms segment.toList

/-- Acceptance of a token list against the empty character list: only
optional and `star` atoms may remain. -/
def atomsMatchNil : List RAtom → Bool
  | [] => true
  | RAtom.lit _ :: _ => false
  | RAtom.opt _ :: ps => atomsMatchNil ps
  | RAtom.star :: ps => atomsMatchNil ps

/-- Acceptance of a token list against a character list headed by `d`, where
`next p` decides acceptance of a token list `p` against the tail: a literal
consumes `d` when it matches, an optional literal may consume `d` or be
skipped, `star` may be skipped or consume `d` and stay. -/
def atomsMatchCons (ci : Bool) (d : Char) (next : List RAtom → Bool) :
    List RAtom → Bool
  | [] => false
  | RAtom.lit c :: ps => (foldChar ci c == foldChar ci d) && next ps
  | RAtom.opt c :: ps =>
    atomsMatchCons ci d next ps || ((foldChar ci c == foldChar ci d) && next ps)
  | RAtom.star :: ps =>
    atomsMatchCons ci d next ps || next (RAtom.star :: ps)

/-- Acceptance of a character list against a token list, by structural
recursion on the characters. -/
def atomsMatchChars (ci : Bool) : List Char → List RAtom → Bool
  | [], p => atomsMatchNil p
  | d :: ds, p => atomsMatchCons ci d (fun q => atomsMatchChars ci ds q) p

/-- Acceptance of the anchored regex (the whole character list must match):
a literal consumes one matching character, an optional literal consumes one
matching character or none, `star` (the `.STAR` atom) consumes any run. -/
def atomsMatch (ci : Bool) (p : List RAtom) (s : List Char) : Bool :=
  atomsMatchChars ci s p

/-- `regex.test(name)` for a compiled segment regex. -/
def regexTest (ci : Bool) (r : List RAtom) (name : String) : Bool :=
  atomsMatch ci r name.toList

/-- The literal branch of the match decision in `searchDirectory`:
`name.toLowerCase() === segment.toLowerCase()` on win32 and
`name === segment` elsewhere. -/
def litEq (ci : Bool) (segment name : String) : Bool :=
  name.toList.map (foldChar ci) == segment.toList.map (foldChar ci)

/-- A directory entry: the `[name, fileType]` pair returned by
`readDirectory` (`FileType.File = 1`, `FileType.Directory = 2`,
`FileType.SymbolicLink = 64`, `FileType.Unknown = 0`). -/
abbrev Entry := String × Nat

/-- The external directory-listing provider, keyed by `uri.fsPath`;
`none` models a rejected `readDirectory` call. -/
abbrev Provider := String → Option (List Entry)

/-- The optional `directoryCache` `Map` from `uri.fsPath` to a listing. -/
abbrev Cache := List (String × List Entry)

/-- `maxResults !== undefined && results.length >= maxResults`. -/
def maxHit (maxResults : Option Nat) (results : List String) : Bool :=
  match maxResults with
  | none => false
  | some k => decide (k ≤ results.length)

/-- `fileType === FileType.File || (fileType & FileType.File)`. -/
def isFileType (t : Nat) : Bool :=
  t == 1 || t &&& 1 != 0

/-- `fileType === FileType.Directory || (fileType & FileType.Directory)`. -/
def isDirType (t : Nat) : Bool :=
  t == 2 || t &&& 2 != 0

/-- `vscode.Uri.joinPath(currentUri, name)` on fsPaths. -/
def joinPath (dir name : String) : String :=
  dir ++ "/" ++ name

/-- Outcome of one `searchDirectory` call and of its entry loop:
`ok results cache maxReached` is a normal return, `thrown results cache` is a
JS exception escaping the call, carrying the mutations already made in place
to the shared results array and to the cache. -/
inductive SRes where
  | ok (results : List String) (cache : Option Cache) (maxReached : Bool)
  | thrown (results : List String) (cache : Option Cache)
deriving DecidableEq

/-- The result list held in an outcome (the shared mutable array survives a
caught exception, so both constructors carry it). -/
def SRes.res : SRes → List String
  | SRes.ok r _ _ => r
  | SRes.thrown r _ => r

/-- The cache held in an outcome. -/
def SRes.cacheOf : SRes → Option Cache
  | SRes.ok _ c _ => c
  | SRes.thrown _ c => c

/-- The cache/provider read at the top of the `try` block of
`searchDirectory`: a cache hit returns the stored listing, otherwise the
provider is called and on success the listing is inserted when a cache was
supplied.  `none` models the provider exception (then handled by the catch;
the cache is left untouched because insertion follows a successful read). -/
def getEntries (provider : Provider) (path : String) (cache : Option Cache) :
    Option (List Entry × Option Cache) :=
  match cache with
  | some c =>
    match c.lookup path with
    | some entries => some (entries, some c)
    | none =>
      match provider path with
      | none => none
      | some entries => some (entries, some ((path, entries) :: c))
  | none =>
    match provider path with
    | none => none
    | some entries => some (entries, none)

/-- The per-segment match predicate of `searchDirectory` (lines 153-154 and
176-180): a wildcard segment is compiled by `segmentToRegex` (a SyntaxError,
modelled by `none`, escapes because this happens before the `try` block) and
tested; a literal segment uses platform string equality. -/
def segPred (ci : Bool) (seg : String) : Option (String → Bool) :=
  if hasWildcard seg then
    match segmentToRegex seg with
    | none => none
    | some r => some (fun name => regexTest ci r name)
  else
    some (fun name => litEq ci seg name)

/-- The `for (const [name, fileType] of entries)` loop of `searchDirectory`,
with `recurse` standing for the recursive call on the next segment (that call
happens inside the current `try` block, so an exception it raises is reported
with `SRes.thrown` and caught by the enclosing `searchDirectory`).  Each
iteration first re-checks the result cap, then the match decision; on the
last segment a matching entry is appended when its kind has the File bit; on
other segments a matching entry is descended into when its kind has the
Directory bit. -/
def searchEntries (maxResults : Option Nat) (isLast : Bool)
    (pred : String → Bool) (path : String)
    (recurse : String → List String → Option Cache → SRes) :
    List Entry → List String → Option Cache → SRes
  | [], results, cache => SRes.ok results cache false
  | (name, fileType) :: es, results, cache =>
    if maxHit maxResults results then SRes.ok results cache true
    else if !pred name then
      searchEntries maxResults isLast pred path recurse es results cache
    else if isLast then
      if isFileType fileType then
        searchEntries maxResults isLast pred path recurse es
          (results ++ [joinPath path name]) cache
      else
        searchEntries maxResults isLast pred path recurse es results cache
    else
      if isDirType fileType then
        match recurse (joinPath path name) results cache with
        | SRes.ok results₁ cache₁ true => SRes.ok results₁ cache₁ true
        | SRes.ok results₁ cache₁ false =>
          searchEntries maxResults isLast pred path recurse es results₁ cache₁
        | SRes.thrown results₁ cache₁ => SRes.thrown results₁ cache₁
      else
        searchEntries maxResults isLast pred path recurse es results cache

/-- `searchDirectory` from findFilesWithGlob.js.  In order: the result-cap
check, the exhausted-segments guard, the segment compilation (before the
`try`, so its SyntaxError propagates to the caller), then inside the `try`
the listing read (a provider failure is caught: the subtree contributes
nothing) and the entry loop (an exception from the recursive call is caught
here too, keeping the results accumulated so far and returning `false`). -/
def searchDirectory (provider : Provider) (ci : Bool) (maxResults : Option Nat) :
    List String → String → List String → Option Cache → SRes
  | segs, path, results, cache =>
    if maxHit maxResults results then SRes.ok results cache true
    else
      match segs with
      | [] => SRes.ok results cache false
      | seg :: rest =>
        match segPred ci seg with
        | none => SRes.thrown results cache
        | some pred =>
          match getEntries provider path cache with
          | none => SRes.ok results cache false
          | some (entries, cache₁) =>
            match searchEntries maxResults rest.isEmpty pred path
                (fun p r c => searchDirectory provider ci maxResults rest p r c)
                entries results cache₁ with
            | SRes.thrown r c => SRes.ok r c false
            | SRes.ok r c b => SRes.ok r c b

/-- Pattern normalization in `findFilesWithGlob`: backslashes become forward
slashes, then leading and trailing slashes are stripped. -/
def normalizePattern (pattern : String) : String :=
  let l := pattern.toList.map (fun c => if c = '\\' then '/' else c)
  let l := l.dropWhile (fun c => c = '/')
  let l := (l.reverse.dropWhile (fun c => c = '/')).reverse
  String.mk l

/-- `normalizedPattern.split(slash)`: JS `String.prototype.split` on a single
character, keeping empty pieces. -/
def splitSegsAux (acc : List Char) : List Char → List String
  | [] => [String.mk acc.reverse]
  | c :: cs =>
    if c = '/' then String.mk acc.reverse :: splitSegsAux [] cs
    else splitSegsAux (c :: acc) cs

/-- Split a pattern string on `/`. -/
def splitSegs (s : String) : List String :=
  splitSegsAux [] s.toList

/-- `findFilesWithGlob(workspaceFolder, pattern, maxResults, vscodeMock,
directoryCache)`: `none` for the workspace folder models a falsy folder, the
result `none` models a rejected promise (an exception from the root-level
segment compilation), and `some results` a fulfilled one. -/
def findFilesWithGlob (provider : Provider) (ci : Bool)
    (workspaceFolder : Option String) (pattern : String)
    (maxResults : Option Nat) (directoryCache : Option Cache) :
    Option (List String) :=
  match workspaceFolder with
  | none => some []
  | some root =>
    if pattern = "" then some []
    else
      let normalized := normalizePattern pattern
      if normalized = "" then some []
      else
        match searchDirectory provider ci maxResults (splitSegs normalized)
            root [] directoryCache with
        | SRes.ok results _ _ => some results
        | SRes.thrown _ _ => none

/-- The result of `relPath.match(regex)` for a successful match: positional
capture groups (`m[idx]`, `none` when the group is absent from the regex or
did not participate in the match) and named capture groups (`m.groups[name]`;
an absent `m.groups` object behaves as the everywhere-`none` function). -/
structure MatchData where
  numbered : Nat → Option String
  named : String → Option String

/-- The brace characters, spelled via their code points. -/
def braceOpen : Char := Char.ofNat 123

/-- The closing brace character. -/
def braceClose : Char := Char.ofNat 125

/-- `parseInt(tok, 10)` for an all-digit token. -/
def digitsToNat (tok : List Char) : Nat :=
  tok.foldl (fun acc c => acc * 10 + (c.toNat - Char.toNat '0')) 0

/-- Replacement text for one placeholder token, from the replacement callback
in `getRelatedFiles`: an all-digit token picks the numbered capture group,
any other token the named capture group; a missing or non-participating group
(and an absent `m.groups`) substitutes the empty string, never an error. -/
def tokenValue (m : MatchData) (tok : List Char) : String :=
  if tok.all Char.isDigit then (m.numbered (digitsToNat tok)).getD ""
  else (m.named (String.mk tok)).getD ""

/-- Dropping a matched run never lengthens a list. -/
theorem dropWhile_len_le (p : Char → Bool) :
    ∀ l : List Char, (l.dropWhile p).length ≤ l.length := by
  intro l
  induction l with
  | nil => simp [List.dropWhile]
  | cons c cs ih =>
    simp only [List.dropWhile]
    by_cases h : p c
    · simp [h]; omega
    · simp [h]

/-- `target.replace(placeholderRegex, cb)` with the global placeholder regex
of `getRelatedFiles` (dollar, open brace, one or more non-close-brace
characters, close brace): a left-to-right scan that replaces each maximal
complete placeholder and copies everything else verbatim; replacement text is
not rescanned.  A dollar-brace without a nonempty token and a closing brace
is not a match, so the scan moves one character forward. -/
def substPlaceholders (m : MatchData) : List Char → List Char
  | [] => []
  | [c] => [c]
  | c :: d :: cs =>
    if c = '$' ∧ d = braceOpen then
      match cs.takeWhile (fun x => x ≠ braceClose),
          hdw : cs.dropWhile (fun x => x ≠ braceClose) with
      | _ :: _, _ :: rs =>
        (tokenValue m (cs.takeWhile (fun x => x ≠ braceClose))).toList ++
          substPlaceholders m rs
      | _, _ => c :: substPlaceholders m (d :: cs)
    else c :: substPlaceholders m (d :: cs)
termination_by l => l.length
decreasing_by
  all_goals simp_wf
  have h := dropWhile_len_le (fun x => decide (x ≠ braceClose)) cs
  rw [hdw] at h
  simp at h
  omega

/-- String-level wrapper: the substituted target template. -/
def replaceTemplate (m : MatchData) (target : String) : String :=
  String.mk (substPlaceholders m target.toList)

/-- State of the worklist loop in `getTransitiveRelatedFiles`: the
`processedPaths` set (as a list queried with `contains`), the `resultMap`
from relative path to URI in insertion order, and the pending `queue` of
URIs. -/
structure ClosureState where
  processed : List String
  resultMap : List (String × String)
  queue : List String
deriving DecidableEq

/-- Initial state of the closure: `queue = [fileUri]`, nothing processed. -/
def initState (fileUri : String) : ClosureState :=
  ⟨[], [], [fileUri]⟩

/-- One iteration of the `while (queue.length > 0)` loop of
`getTransitiveRelatedFiles`: dequeue the head URI; if its relative path was
already processed, drop it; otherwise mark it processed, record it in the
result map, and append every one-hop candidate whose relative path is not yet
processed.  `oneHop` abstracts `getRelatedFiles` (a deterministic function of
the URI: by cache transparency, the shared directory cache does not change
its results), and `rel` abstracts
`path.relative(workspaceRoot, uri.fsPath)` with backslash normalization.
`none` signals an empty queue, i.e. loop exit. -/
def stepClosure (oneHop : String → List String) (rel : String → String)
    (s : ClosureState) : Option ClosureState :=
  match s.queue with
  | [] => none
  | cur :: rest =>
    let r := rel cur
    if s.processed.contains r then
      some ⟨s.processed, s.resultMap, rest⟩
    else
      some ⟨r :: s.processed, s.resultMap ++ [(r, cur)],
        rest ++ (oneHop cur).filter (fun u => !((r :: s.processed).contains (rel u)))⟩

/-- Run the worklist loop for at most `fuel` iterations (the JS loop has no
fuel; termination for finite path universes is proved separately). -/
def closureRun (oneHop : String → List String) (rel : String → String) :
    Nat → ClosureState → ClosureState
  | 0, s => s
  | n + 1, s =>
    match stepClosure oneHop rel s with
    | none => s
    | some s₁ => closureRun oneHop rel n s₁

/-- `getTransitiveRelatedFiles(fileUri)` after `fuel` loop iterations:
`Array.from(resultMap.values())`. -/
def getTransitiveRelatedFiles (oneHop : String → List String)
    (rel : String → String) (fuel : Nat) (fileUri : String) : List String :=
  (closureRun oneHop rel fuel (initState fileUri)).resultMap.map Prod.snd

/-- Boolean lexicographic comparison on character lists, used to model the
comparator-driven `Array.prototype.sort`. -/
def leChars : List Char → List Char → Bool
  | [], _ => true
  | _ :: _, [] => false
  | a :: as, b :: bs =>
    if a < b then true
    else if b < a then false
    else leChars as bs

/-- The comparator `(a, b) => a.localeCompare(b, undefined, sensitivity
base)`: a case-insensitive lexicographic order, modelled by comparing the
lowercased character lists. -/
def baseLe (a b : String) : Bool :=
  leChars (a.toList.map Char.toLower) (b.toList.map Char.toLower)

/-- Insert into a sorted list, modelling one step of the comparator sort. -/
def insertSorted (x : String) : List String → List String
  | [] => [x]
  | y :: ys => if baseLe x y then x :: y :: ys else y :: insertSorted x ys

/-- `list.sort(localeCompare base)`: a comparison sort producing a
permutation of its input ordered by `baseLe`. -/
def sortBase : List String → List String
  | [] => []
  | x :: xs => insertSorted x (sortBase xs)

/-- The dedup-by-relative-path loop of `getPrevNextInfoHelperForUri`: a `Map`
from workspace-relative path to URI, keeping the first URI seen per path. -/
def buildRelMap (rel : String → String) (acc : List (String × String)) :
    List String → List (String × String)
  | [] => acc
  | u :: us =>
    if (acc.lookup (rel u)).isSome then buildRelMap rel acc us
    else buildRelMap rel (acc ++ [(rel u, u)]) us

/-- The navigation info computed by `getPrevNextInfoHelperForUri` once a
workspace folder was found: the sorted list, the current index, whether the
defensive `idx === -1` fallback fired, and the wrapped neighbor indices. -/
structure PrevNextInfo where
  list : List String
  currentIdx : Nat
  usedFallback : Bool
  nextIndex : Nat
  prevIndex : Nat
deriving DecidableEq

/-- `getPrevNextInfoHelperForUri(fileUri)` (extension module) after the
workspace folder was resolved: compute the transitive closure, push the
current file, deduplicate by relative path, sort case-insensitively, and look
the current file's relative path up by `indexOf`, defaulting the index to `0`
when it is absent (`usedFallback` records that branch).  `none` models the
early `no related files` return on an empty list. -/
def getPrevNextInfoHelperForUri (oneHop : String → List String)
    (rel : String → String) (fuel : Nat) (fileUri : String) :
    Option PrevNextInfo :=
  let candidateUris := getTransitiveRelatedFiles oneHop rel fuel fileUri ++ [fileUri]
  let map := buildRelMap rel [] candidateUris
  let list := sortBase (map.map Prod.fst)
  if list.isEmpty then none
  else
    let currentKey := rel fileUri
    let idxOpt := list.findIdx? (fun x => x = currentKey)
    let idx := idxOpt.getD 0
    some ⟨list, idx, idxOpt.isNone, (idx + 1) % list.length,
      if idx = 0 then list.length - 1 else idx - 1⟩

/-- A provider that maps a directory to the listing of another provider minus
its entries of kind exactly `SymbolicLink` (64). -/
def filterSymlinks (provider : Provider) : Provider :=
  fun d => (provider d).map (fun l => l.filter (fun e => e.2 != 64))

/-- A provider equal to `provider` except that directory `d` lists as empty. -/
def overrideEmpty (provider : Provider) (d : String) : Provider :=
  fun x => if x = d then some [] else provider x

/-- Concrete test tree: a root with a subdirectory, two js files and a
symbolic link. -/
def fsGood : Provider := fun d =>
  if d = "root" then some [("src", 2), ("a.js", 1), ("b.js", 1), ("ln", 64)]
  else if d = "root/src" then some [("x.js", 1), ("y.md", 1)]
  else none

/-- Concrete test tree whose `root/sub` directory listing fails. -/
def fsFail : Provider := fun d =>
  if d = "root" then some [("sub", 2), ("ok", 2)]
  else if d = "root/ok" then some [("a.js", 1)]
  else none

/-- Concrete one-hop relation with a two-cycle between A and B. -/
def oneHopAB : String → List String := fun s =>
  if s = "A" then ["B"] else if s = "B" then ["A"] else []

/-- Concrete one-hop relation in which two different edges reach C:
A relates to B and C, and B relates to C again. -/
def oneHopTwoEdges : String → List String := fun s =>
  if s = "A" then ["B", "C"] else if s = "B" then ["C"] else []

/-- Concrete match data: numbered group 1 captured `cap`, named group `g`
captured `ng`, everything else absent. -/
def mWitness : MatchData :=
  ⟨fun n => if n = 1 then some "cap" else none,
   fun s => if s = "g" then some "ng" else none⟩

end RelSrc

namespace RelSrc

/-- `takeWhile` and `dropWhile` split a list at the first failing element. -/
theorem takeDropWhile_append (p : Char → Bool) (b : Char) (rest : List Char)
    (hb : p b = false) :
    ∀ tok : List Char, (∀ c ∈ tok, p c = true) →
      (tok ++ b :: rest).takeWhile p = tok ∧
        (tok ++ b :: rest).dropWhile p = b :: rest := by
  intro tok
  induction tok with
  | nil => intro _; simp [List.takeWhile, List.dropWhile, hb]
  | cons c cs ih =>
    intro h
    have hc : p c = true := h c (by simp)
    have := ih (fun x hx => h x (by simp [hx]))
    simp [List.takeWhile, List.dropWhile, hc, this.1, this.2]

/-- The scan copies the empty template. -/
theorem subst_nil (m : MatchData) : substPlaceholders m [] = [] := by
  simp [substPlaceholders]

/-- The scan copies a one-character template. -/
theorem subst_single (m : MatchData) (c : Char) :
    substPlaceholders m [c] = [c] := by
  simp [substPlaceholders]

/-- A position that does not start a placeholder is copied verbatim. -/
theorem subst_copy (m : MatchData) (c d : Char) (cs : List Char)
    (h : ¬(c = '$' ∧ d = braceOpen)) :
    substPlaceholders m (c :: d :: cs) = c :: substPlaceholders m (d :: cs) := by
  rw [substPlaceholders]
  simp [h]

/-- A complete placeholder is replaced by the token's value, and scanning
resumes after the closing brace. -/
theorem subst_placeholder (m : MatchData) (tok rest : List Char)
    (hne : tok ≠ []) (hnb : ∀ c ∈ tok, c ≠ braceClose) :
    substPlaceholders m ('$' :: braceOpen :: (tok ++ braceClose :: rest)) =
      (tokenValue m tok).toList ++ substPlaceholders m rest := by
  have hsplit := takeDropWhile_append (fun x => decide (x ≠ braceClose)) braceClose rest
    (by simp) tok (fun c hc => by simpa using hnb c hc)
  rw [substPlaceholders]
  simp only [hsplit.1, hsplit.2]
  match tok, hne, hnb, hsplit with
  | t :: ts, _, hnb, hsplit =>
    split
    · split
      · rename_i x1 head tail head1 rs heq1 heq
        have h2 : braceClose :: rest = head1 :: rs := hsplit.2.symm.trans heq
        cases h2
        rfl
      · rename_i hfail
        exact (hfail t ts braceClose rest rfl hsplit.2).elim
    · rename_i hcond
      exact absurd ⟨trivial, trivial⟩ hcond

end RelSrc

namespace RelSrc

/-- C8: for a matcher whose source regex matched the current relative path,
placeholder substitution replaces each complete placeholder in the target
template by the numbered capture group when the token is all digits and by
the named capture group otherwise, substituting the empty string (and raising
no error) whenever the referenced group is absent or did not participate. -/
theorem claim8_placeholder_subst (m : MatchData) (tok rest : List Char)
    (hne : tok ≠ []) (hnb : ∀ c ∈ tok, c ≠ braceClose) :
    substPlaceholders m ('$' :: braceOpen :: (tok ++ braceClose :: rest)) =
      (if tok.all Char.isDigit then (m.numbered (digitsToNat tok)).getD ""
        else (m.named (String.mk tok)).getD "").toList ++
        substPlaceholders m rest := by
  rw [subst_placeholder m tok rest hne hnb]
  rfl

/-- Witness for C8 at the concrete match data `mWitness`: a numbered token, a
named token, and an absent-group token (which substitutes the empty string). -/
theorem claim8_placeholder_subst_witness :
    substPlaceholders mWitness ('$' :: braceOpen :: (['1'] ++ braceClose :: ['/', 'x']))
        = ['c', 'a', 'p', '/', 'x'] ∧
      substPlaceholders mWitness ('$' :: braceOpen :: (['g'] ++ braceClose :: []))
        = ['n', 'g'] ∧
      substPlaceholders mWitness ('$' :: braceOpen :: (['2'] ++ braceClose :: ['x']))
        = ['x'] := by
  refine ⟨?_, ?_, ?_⟩
  · rw [claim8_placeholder_subst mWitness ['1'] ['/', 'x'] (by decide) (by decide)]
    rw [subst_copy mWitness '/' 'x' [] (by decide), subst_single]
    decide
  · rw [claim8_placeholder_subst mWitness ['g'] [] (by decide) (by decide)]
    rw [subst_nil]
    decide
  · rw [claim8_placeholder_subst mWitness ['2'] ['x'] (by decide) (by decide)]
    rw [subst_single]
    decide

/-- C1 (refuted, code bug): the segment `a?` contains no `*`, yet the regex
built by `segmentToRegex` does not match exactly that segment: the `?` is not
escaped (the escape class omits it), so it acts as a quantifier.  The
compiled regex accepts the empty name and rejects the name `a?` itself, while
the literal string-equality branch of `searchDirectory` decides the opposite
on both, so the two paths disagree for a wildcard-free segment. -/
theorem claim1_unescaped_question_bug :
    hasWildcard "a?" = false ∧
      (segmentToRegex "a?").map (fun r => regexTest false r "") = some true ∧
      (segmentToRegex "a?").map (fun r => regexTest false r "a?") = some false ∧
      litEq false "a?" "" = false ∧
      litEq false "a?" "a?" = true ∧
      ("" : String) ≠ "a?" := by
  decide

end RelSrc

namespace RelSrc

/-- Unfolding of one fueled loop iteration. -/
theorem closureRun_succ (oneHop : String → List String) (rel : String → String)
    (n : Nat) (s s₁ : ClosureState) (h : stepClosure oneHop rel s = some s₁) :
    closureRun oneHop rel (n + 1) s = closureRun oneHop rel n s₁ := by
  simp [closureRun, h]

/-- A state with an empty queue is a fixed point of the loop. -/
theorem closureRun_empty (oneHop : String → List String) (rel : String → String)
    (s : ClosureState) (h : s.queue = []) :
    ∀ n, closureRun oneHop rel n s = s := by
  intro n
  cases n with
  | zero => rfl
  | succ n => simp [closureRun, stepClosure, h]

/-- Invariant of the worklist loop: the result-map keys are distinct and all
marked processed. -/
theorem closure_invariant (oneHop : String → List String) (rel : String → String) :
    ∀ (n : Nat) (s : ClosureState),
      (s.resultMap.map Prod.fst).Nodup →
      (∀ k ∈ s.resultMap.map Prod.fst, k ∈ s.processed) →
      ((closureRun oneHop rel n s).resultMap.map Prod.fst).Nodup ∧
        (∀ k ∈ (closureRun oneHop rel n s).resultMap.map Prod.fst,
          k ∈ (closureRun oneHop rel n s).processed) := by
  intro n
  induction n with
  | zero => intro s h1 h2; exact ⟨h1, h2⟩
  | succ n ih =>
    intro s h1 h2
    match hq : s.queue with
    | [] =>
      rw [closureRun_empty oneHop rel s hq]
      exact ⟨h1, h2⟩
    | cur :: rest =>
      by_cases hc : s.processed.contains (rel cur) = true
      · have hmem : rel cur ∈ s.processed := by simpa using hc
        have hstep : stepClosure oneHop rel s = some ⟨s.processed, s.resultMap, rest⟩ := by
          simp [stepClosure, hq, hmem]
        rw [closureRun_succ oneHop rel n s _ hstep]
        exact ih _ h1 h2
      · have hc₂ : s.processed.contains (rel cur) = false := by
          simp only [Bool.not_eq_true] at hc
          exact hc
        have hnmem : rel cur ∉ s.processed := by simpa using hc₂
        have hstep : stepClosure oneHop rel s = some
            ⟨rel cur :: s.processed, s.resultMap ++ [(rel cur, cur)],
              rest ++ (oneHop cur).filter
                (fun u => !((rel cur :: s.processed).contains (rel u)))⟩ := by
          simp [stepClosure, hq, hnmem]
        rw [closureRun_succ oneHop rel n s _ hstep]
        apply ih
        · simp only [List.map_append, List.map_cons, List.map_nil]
          rw [List.nodup_append]
          refine ⟨h1, List.nodup_singleton _, ?_⟩
          intro k hk
          have hkp := h2 k hk
          simp only [List.mem_singleton]
          intro hkr
          rw [hkr] at hkp
          have : s.processed.contains (rel cur) = true := by
            exact List.elem_eq_true_of_mem hkp
          rw [this] at hc₂
          cases hc₂
        · intro k hk
          simp only [List.map_append, List.map_cons, List.map_nil,
            List.mem_append, List.mem_singleton] at hk
          cases hk with
          | inl h => exact List.mem_cons_of_mem _ (h2 k h)
          | inr h => rw [h]; exact List.mem_cons_self _ _

end RelSrc

namespace RelSrc

/-- C2 (refuted): the pending queue of `getTransitiveRelatedFiles` can hold
two entries with the same relative path.  With the identity relative-path
map, the relation A to B and C plus B to C produces, after two loop
iterations, the queue `[C, C]`: the enqueue guard only consults the
`processedPaths` set, which does not yet contain C when the second edge to C
is found. -/
theorem claim2_queue_duplicate_counterexample :
    (closureRun oneHopTwoEdges (fun u => u) 2 (initState "A")).queue = ["C", "C"] ∧
      ¬ ((closureRun oneHopTwoEdges (fun u => u) 2 (initState "A")).queue.map
          (fun u => u)).Nodup := by
  decide

/-- C2 (amended): every node is expanded at most once per unique relative
path: the `resultMap` built by the closure loop never holds two entries with
the same relative-path key (equivalently, the dequeue-time processed-set
guard makes each unique relative path enter the result exactly once), even
though the pending queue may transiently hold duplicates. -/
theorem claim2_expanded_once_amended (oneHop : String → List String)
    (rel : String → String) (start : String) (n : Nat) :
    ((closureRun oneHop rel n (initState start)).resultMap.map Prod.fst).Nodup := by
  have h := closure_invariant oneHop rel n (initState start) (by simp [initState])
    (by simp [initState])
  exact h.1

end RelSrc

namespace RelSrc

/-- Number of universe paths not yet processed: the decreasing measure of the
closure loop. -/
def relMeasure (U : List String) (s : ClosureState) : Nat :=
  (U.toFinset \ s.processed.toFinset).card

/-- One loop iteration on a nonempty queue preserves the queue invariant and
decreases the lexicographic measure: either a new path is processed (the
unprocessed-universe count drops) or a duplicate is discarded (the queue
shrinks and the count is unchanged). -/
theorem stepClosure_progress (oneHop : String → List String)
    (rel : String → String) (U : List String)
    (hU : ∀ x u, u ∈ oneHop x → rel u ∈ U) (s : ClosureState)
    (cur : String) (rest : List String) (hqs : s.queue = cur :: rest)
    (hinv : ∀ u ∈ s.queue, rel u ∈ U) :
    ∃ s₁, stepClosure oneHop rel s = some s₁ ∧
      (∀ u ∈ s₁.queue, rel u ∈ U) ∧
      (relMeasure U s₁ < relMeasure U s ∨
        (relMeasure U s₁ = relMeasure U s ∧ s₁.queue.length < s.queue.length)) := by
  by_cases hc : s.processed.contains (rel cur) = true
  · have hmem : rel cur ∈ s.processed := by simpa using hc
    refine ⟨⟨s.processed, s.resultMap, rest⟩, ?_, ?_, ?_⟩
    · simp [stepClosure, hqs, hmem]
    · intro u hu
      exact hinv u (by rw [hqs]; exact List.mem_cons_of_mem _ hu)
    · right
      constructor
      · rfl
      · rw [hqs]; simp
  · have hnmem : rel cur ∉ s.processed := by
      simp only [Bool.not_eq_true] at hc
      simpa using hc
    refine ⟨⟨rel cur :: s.processed, s.resultMap ++ [(rel cur, cur)],
        rest ++ (oneHop cur).filter
          (fun u => !((rel cur :: s.processed).contains (rel u)))⟩, ?_, ?_, ?_⟩
    · simp [stepClosure, hqs, hnmem]
    · intro u hu
      simp only [List.mem_append] at hu
      cases hu with
      | inl h => exact hinv u (by rw [hqs]; exact List.mem_cons_of_mem _ h)
      | inr h => exact hU cur u (List.mem_filter.1 h).1
    · left
      have hcurU : rel cur ∈ U := hinv cur (by rw [hqs]; exact List.mem_cons_self _ _)
      apply Finset.card_lt_card
      have hsub : U.toFinset \ (rel cur :: s.processed).toFinset ⊆
          U.toFinset \ s.processed.toFinset := by
        apply Finset.sdiff_subset_sdiff (le_refl _)
        rw [List.toFinset_cons]
        exact Finset.subset_insert _ _
      rw [Finset.ssubset_iff_of_subset hsub]
      refine ⟨rel cur, ?_, ?_⟩
      · rw [Finset.mem_sdiff]
        constructor
        · rw [List.mem_toFinset]; exact hcurU
        · rw [List.mem_toFinset]; exact hnmem
      · rw [Finset.mem_sdiff, List.toFinset_cons]
        intro h
        exact h.2 (Finset.mem_insert_self _ _)

/-- The worklist loop reaches an empty queue within some number of steps,
by well-founded descent on (unprocessed-universe count, queue length). -/
theorem closure_term_aux (oneHop : String → List String) (rel : String → String)
    (U : List String) (hU : ∀ x u, u ∈ oneHop x → rel u ∈ U) :
    ∀ (c q : Nat) (s : ClosureState), (∀ u ∈ s.queue, rel u ∈ U) →
      relMeasure U s ≤ c → s.queue.length ≤ q →
      ∃ n, (closureRun oneHop rel n s).queue = [] := by
  intro c
  induction c with
  | zero =>
    intro q
    induction q with
    | zero =>
      intro s hinv hm hq
      refine ⟨0, ?_⟩
      simpa using List.eq_nil_of_length_eq_zero (Nat.le_zero.1 hq)
    | succ q ihq =>
      intro s hinv hm hq
      match hqs : s.queue with
      | [] => exact ⟨0, by simpa [closureRun] using hqs⟩
      | cur :: rest =>
        obtain ⟨s₁, hstep, hinv₁, hdec⟩ :=
          stepClosure_progress oneHop rel U hU s cur rest hqs hinv
        cases hdec with
        | inl h => omega
        | inr h =>
          obtain ⟨n, hn⟩ := ihq s₁ hinv₁ (by omega) (by rw [hqs] at h hq; simp at h hq; omega)
          exact ⟨n + 1, by rw [closureRun_succ oneHop rel n s s₁ hstep]; exact hn⟩
  | succ c ihc =>
    intro q
    induction q with
    | zero =>
      intro s hinv hm hq
      refine ⟨0, ?_⟩
      simpa using List.eq_nil_of_length_eq_zero (Nat.le_zero.1 hq)
    | succ q ihq =>
      intro s hinv hm hq
      match hqs : s.queue with
      | [] => exact ⟨0, by simpa [closureRun] using hqs⟩
      | cur :: rest =>
        obtain ⟨s₁, hstep, hinv₁, hdec⟩ :=
          stepClosure_progress oneHop rel U hU s cur rest hqs hinv
        cases hdec with
        | inl h =>
          obtain ⟨n, hn⟩ := ihc s₁.queue.length s₁ hinv₁ (by omega) (le_refl _)
          exact ⟨n + 1, by rw [closureRun_succ oneHop rel n s s₁ hstep]; exact hn⟩
        | inr h =>
          obtain ⟨n, hn⟩ := ihq s₁ hinv₁ (by omega) (by rw [hqs] at h hq; simp at h hq; omega)
          exact ⟨n + 1, by rw [closureRun_succ oneHop rel n s s₁ hstep]; exact hn⟩

end RelSrc

namespace RelSrc

/-- C3: for every relation graph whose one-hop images stay inside a finite
universe `U` of relative paths, the worklist closure of
`getTransitiveRelatedFiles` reaches an empty queue after finitely many
iterations (cycles and self-loops included); and on the concrete two-cycle
in which A's matchers resolve to B and B's resolve back to A, the closure
terminates with result exactly A and B, once each, in discovery order. -/
theorem claim3_closure_terminates (U : List String)
    (oneHop : String → List String) (rel : String → String) (start : String)
    (hstart : rel start ∈ U) (hU : ∀ x u, u ∈ oneHop x → rel u ∈ U) :
    (∃ n, (closureRun oneHop rel n (initState start)).queue = []) ∧
      (closureRun oneHopAB (fun u => u) 3 (initState "A")).queue = [] ∧
      getTransitiveRelatedFiles oneHopAB (fun u => u) 3 "A" = ["A", "B"] := by
  refine ⟨?_, by decide, by decide⟩
  apply closure_term_aux oneHop rel U hU (relMeasure U (initState start))
    (initState start).queue.length
  · intro u hu
    simp only [initState, List.mem_singleton] at hu
    rw [hu]
    exact hstart
  · exact le_refl _
  · exact le_refl _

/-- Witness for C3 on the concrete two-cycle graph inside the universe
consisting of A and B. -/
theorem claim3_closure_terminates_witness :
    ∃ n, (closureRun oneHopAB (fun u => u) n (initState "A")).queue = [] := by
  refine (claim3_closure_terminates ["A", "B"] oneHopAB (fun u => u) "A"
    (by decide) ?_).1
  intro x u hu
  simp only [oneHopAB] at hu
  split_ifs at hu with h1 h2
  · simp only [List.mem_singleton] at hu
    subst hu
    decide
  · simp only [List.mem_singleton] at hu
    subst hu
    decide
  · simp at hu

end RelSrc

namespace RelSrc

/-- A successful association-list lookup means the key is present. -/
theorem lookup_isSome_mem (k : String) :
    ∀ acc : List (String × String), (acc.lookup k).isSome = true →
      k ∈ acc.map Prod.fst := by
  intro acc
  induction acc with
  | nil => intro h; simp [List.lookup] at h
  | cons p ps ih =>
    intro h
    rw [List.lookup] at h
    by_cases hk : k == p.1
    · simp only [List.map_cons, List.mem_cons]
      left
      exact (eq_of_beq hk)
    · simp only [Bool.not_eq_true] at hk
      rw [hk] at h
      simp only [List.map_cons, List.mem_cons]
      right
      exact ih h

/-- Keys already in the accumulator survive the dedup loop. -/
theorem buildRelMap_acc_keys (rel : String → String) (k : String) :
    ∀ (us : List String) (acc : List (String × String)),
      k ∈ acc.map Prod.fst → k ∈ (buildRelMap rel acc us).map Prod.fst := by
  intro us
  induction us with
  | nil => intro acc h; simpa [buildRelMap] using h
  | cons u us ih =>
    intro acc h
    rw [buildRelMap]
    by_cases hl : (acc.lookup (rel u)).isSome = true
    · rw [if_pos hl]
      exact ih acc h
    · rw [if_neg hl]
      apply ih
      simp only [List.map_append, List.mem_append]
      left
      exact h

/-- Every input URI contributes its relative path to the dedup map's keys. -/
theorem buildRelMap_mem (rel : String → String) (u : String) :
    ∀ (us : List String) (acc : List (String × String)),
      u ∈ us → rel u ∈ (buildRelMap rel acc us).map Prod.fst := by
  intro us
  induction us with
  | nil => intro acc h; cases h
  | cons v vs ih =>
    intro acc h
    rw [buildRelMap]
    rcases List.mem_cons.1 h with h1 | h2
    · subst h1
      by_cases hl : (acc.lookup (rel u)).isSome = true
      · rw [if_pos hl]
        exact buildRelMap_acc_keys rel (rel u) vs acc (lookup_isSome_mem _ acc hl)
      · rw [if_neg hl]
        apply buildRelMap_acc_keys
        simp
    · by_cases hl : (acc.lookup (rel v)).isSome = true
      · rw [if_pos hl]
        exact ih acc h2
      · rw [if_neg hl]
        exact ih _ h2

/-- Membership is invariant under sorted insertion. -/
theorem insertSorted_mem (a x : String) :
    ∀ l : List String, (a ∈ insertSorted x l ↔ a = x ∨ a ∈ l) := by
  intro l
  induction l with
  | nil => simp [insertSorted]
  | cons y ys ih =>
    rw [insertSorted]
    by_cases hle : baseLe x y = true
    · rw [if_pos hle]
      simp
    · rw [if_neg hle]
      simp only [List.mem_cons, ih]
      tauto

/-- The comparator sort is membership-preserving. -/
theorem sortBase_mem (a : String) :
    ∀ l : List String, (a ∈ sortBase l ↔ a ∈ l) := by
  intro l
  induction l with
  | nil => simp [sortBase]
  | cons x xs ih =>
    rw [sortBase]
    rw [insertSorted_mem]
    simp only [List.mem_cons, ih]

/-- `indexOf` on a present element does not report absence. -/
theorem findIdx_mem_ne_none (k : String) :
    ∀ l : List String, k ∈ l → l.findIdx? (fun x => x = k) ≠ none := by
  intro l
  induction l with
  | nil => intro h; cases h
  | cons x xs ih =>
    intro h
    rw [List.findIdx?]
    by_cases hx : x = k
    · simp [hx]
    · rcases List.mem_cons.1 h with h1 | h2
      · exact absurd h1.symm hx
      · simp only [hx, decide_False, Bool.false_eq_true, if_false]
        intro hcon
        exact ih h2 (by simpa using hcon)

end RelSrc

namespace RelSrc

/-- C9: whenever a workspace folder was found, the sorted list computed by
`getPrevNextInfoHelperForUri` contains the start file's normalized relative
path (the current file is always inserted with the same normalization before
deduplication), so the `indexOf` lookup cannot report absence and the
defensive fall-back to index 0 is unreachable: the helper returns info whose
`usedFallback` flag is false. -/
theorem claim9_current_index_found (oneHop : String → List String)
    (rel : String → String) (fuel : Nat) (fileUri : String) :
    ∃ info, getPrevNextInfoHelperForUri oneHop rel fuel fileUri = some info ∧
      info.usedFallback = false ∧ rel fileUri ∈ info.list := by
  have hmem : rel fileUri ∈ (buildRelMap rel []
      (getTransitiveRelatedFiles oneHop rel fuel fileUri ++ [fileUri])).map Prod.fst :=
    buildRelMap_mem rel fileUri _ [] (by simp)
  have hsort : rel fileUri ∈ sortBase ((buildRelMap rel []
      (getTransitiveRelatedFiles oneHop rel fuel fileUri ++ [fileUri])).map Prod.fst) :=
    (sortBase_mem _ _).2 hmem
  have hne : sortBase ((buildRelMap rel []
      (getTransitiveRelatedFiles oneHop rel fuel fileUri ++ [fileUri])).map Prod.fst) ≠ [] := by
    intro hcon
    rw [hcon] at hsort
    cases hsort
  have hidx := findIdx_mem_ne_none (rel fileUri) _ hsort
  rw [getPrevNextInfoHelperForUri]
  simp only []
  rw [if_neg (by simpa [List.isEmpty_iff] using hne)]
  refine ⟨_, rfl, ?_, ?_⟩
  · simp only [Option.isNone_eq_false_iff, Option.isSome_iff_ne_none]
    exact hidx
  · exact hsort

end RelSrc

namespace RelSrc

/-- The entry loop only depends on the recursive call extensionally. -/
theorem searchEntries_congr (maxR : Option Nat) (isLast : Bool)
    (pred : String → Bool) (path : String)
    (rec₁ rec₂ : String → List String → Option Cache → SRes)
    (h : ∀ p r c, rec₁ p r c = rec₂ p r c) :
    ∀ (entries : List Entry) (results : List String) (cache : Option Cache),
      searchEntries maxR isLast pred path rec₁ entries results cache =
        searchEntries maxR isLast pred path rec₂ entries results cache := by
  intro entries
  induction entries with
  | nil => intro results cache; rfl
  | cons e es ih =>
    intro results cache
    obtain ⟨name, t⟩ := e
    rw [searchEntries, searchEntries]
    by_cases h1 : maxHit maxR results = true
    · rw [if_pos h1, if_pos h1]
    · rw [if_neg h1, if_neg h1]
      by_cases h2 : (!pred name) = true
      · rw [if_pos h2, if_pos h2]
        exact ih _ _
      · rw [if_neg h2, if_neg h2]
        by_cases h3 : isLast = true
        · rw [if_pos h3, if_pos h3]
          by_cases h4 : isFileType t = true
          · rw [if_pos h4, if_pos h4]
            exact ih _ _
          · rw [if_neg h4, if_neg h4]
            exact ih _ _
        · rw [if_neg h3, if_neg h3]
          by_cases h5 : isDirType t = true
          · rw [if_pos h5, if_pos h5]
            rw [h]
            cases hrec : rec₂ (joinPath path name) results cache with
            | ok r c b =>
              cases b with
              | true => rfl
              | false => exact ih _ _
            | thrown r c => rfl
          · rw [if_neg h5, if_neg h5]
            exact ih _ _

/-- An entry of kind exactly SymbolicLink (64) is skipped by the entry loop:
when the cap has not been reached, processing it is a no-op on a final
segment (its kind lacks the File bit) and on a non-final segment (its kind
lacks the Directory bit). -/
theorem searchEntries_skip_symlink (maxR : Option Nat) (isLast : Bool)
    (pred : String → Bool) (path : String)
    (recurse : String → List String → Option Cache → SRes)
    (name : String) (es : List Entry) (results : List String)
    (cache : Option Cache) (hmax : maxHit maxR results = false) :
    searchEntries maxR isLast pred path recurse ((name, 64) :: es) results cache =
      searchEntries maxR isLast pred path recurse es results cache := by
  rw [searchEntries]
  rw [if_neg (by rw [hmax]; exact fun h => Bool.false_ne_true h)]
  by_cases h2 : (!pred name) = true
  · rw [if_pos h2]
  · rw [if_neg h2]
    by_cases h3 : isLast = true
    · rw [if_pos h3]
      rw [if_neg (by decide : ¬isFileType 64 = true)]
    · rw [if_neg h3]
      rw [if_neg (by decide : ¬isDirType 64 = true)]

/-- With no result cap, the entry loop ignores entries of kind exactly 64:
running it on the listing with those entries removed gives the same outcome. -/
theorem searchEntries_filter_symlink (isLast : Bool)
    (pred : String → Bool) (path : String)
    (recurse : String → List String → Option Cache → SRes) :
    ∀ (entries : List Entry) (results : List String) (cache : Option Cache),
      searchEntries none isLast pred path recurse
          (entries.filter (fun e => e.2 != 64)) results cache =
        searchEntries none isLast pred path recurse entries results cache := by
  intro entries
  induction entries with
  | nil => intro results cache; rfl
  | cons e es ih =>
    intro results cache
    obtain ⟨name, t⟩ := e
    by_cases ht : t = 64
    · subst ht
      rw [searchEntries_skip_symlink none isLast pred path recurse name es results cache rfl]
      have : ((name, 64) :: es).filter (fun e => e.2 != 64) =
          es.filter (fun e => e.2 != 64) := by simp [List.filter]
      rw [this]
      exact ih _ _
    · have hkeep : ((name, t) :: es).filter (fun e => e.2 != 64) =
          (name, t) :: es.filter (fun e => e.2 != 64) := by
        have hb : (t != 64) = true := by simpa using ht
        simp [List.filter, hb]
      rw [hkeep]
      rw [searchEntries, searchEntries]
      by_cases h1 : maxHit none results = true
      · rw [if_pos h1, if_pos h1]
      · rw [if_neg h1, if_neg h1]
        by_cases h2 : (!pred name) = true
        · rw [if_pos h2, if_pos h2]
          exact ih _ _
        · rw [if_neg h2, if_neg h2]
          by_cases h3 : isLast = true
          · rw [if_pos h3, if_pos h3]
            by_cases h4 : isFileType t = true
            · rw [if_pos h4, if_pos h4]
              exact ih _ _
            · rw [if_neg h4, if_neg h4]
              exact ih _ _
          · rw [if_neg h3, if_neg h3]
            by_cases h5 : isDirType t = true
            · rw [if_pos h5, if_pos h5]
              cases hrec : recurse (joinPath path name) results cache with
              | ok r c b =>
                cases b with
                | true => rfl
                | false => exact ih _ _
              | thrown r c => rfl
            · rw [if_neg h5, if_neg h5]
              exact ih _ _

end RelSrc

namespace RelSrc

/-- The cap check is never hit without a cap. -/
theorem maxHit_none (results : List String) : maxHit none results = false := rfl

/-- The entry loop started without a cache keeps no cache, provided the
recursive call does. -/
theorem searchEntries_cache_none (maxR : Option Nat) (isLast : Bool)
    (pred : String → Bool) (path : String)
    (recurse : String → List String → Option Cache → SRes)
    (hrec : ∀ p r, (recurse p r none).cacheOf = none) :
    ∀ (entries : List Entry) (results : List String),
      (searchEntries maxR isLast pred path recurse entries results none).cacheOf = none := by
  intro entries
  induction entries with
  | nil => intro results; rfl
  | cons e es ih =>
    intro results
    obtain ⟨name, t⟩ := e
    rw [searchEntries]
    by_cases h1 : maxHit maxR results = true
    · rw [if_pos h1]; rfl
    · rw [if_neg h1]
      by_cases h2 : (!pred name) = true
      · rw [if_pos h2]; exact ih _
      · rw [if_neg h2]
        by_cases h3 : isLast = true
        · rw [if_pos h3]
          by_cases h4 : isFileType t = true
          · rw [if_pos h4]; exact ih _
          · rw [if_neg h4]; exact ih _
        · rw [if_neg h3]
          by_cases h5 : isDirType t = true
          · rw [if_pos h5]
            cases hrc : recurse (joinPath path name) results none with
            | ok r c b =>
              have hc : c = none := by
                have := hrec (joinPath path name) results
                rw [hrc] at this
                exact this
              subst hc
              cases b with
              | true => rfl
              | false => exact ih _
            | thrown r c =>
              have hc : c = none := by
                have := hrec (joinPath path name) results
                rw [hrc] at this
                exact this
              subst hc
              rfl
          · rw [if_neg h5]; exact ih _

/-- A scan started without a cache keeps no cache. -/
theorem searchDirectory_cache_none (provider : Provider) (ci : Bool)
    (maxR : Option Nat) :
    ∀ (segs : List String) (path : String) (results : List String),
      (searchDirectory provider ci maxR segs path results none).cacheOf = none := by
  intro segs
  induction segs with
  | nil =>
    intro path results
    rw [searchDirectory]
    by_cases h1 : maxHit maxR results = true
    · rw [if_pos h1]; rfl
    · rw [if_neg h1]; rfl
  | cons seg rest ih =>
    intro path results
    rw [searchDirectory]
    by_cases h1 : maxHit maxR results = true
    · rw [if_pos h1]; rfl
    · rw [if_neg h1]
      cases hsp : segPred ci seg with
      | none => rfl
      | some pred =>
        cases hp : provider path with
        | none => simp only [getEntries, hp]; rfl
        | some entries =>
          simp only [getEntries, hp]
          have hE := searchEntries_cache_none maxR rest.isEmpty pred path
            (fun p r c => searchDirectory provider ci maxR rest p r c)
            (fun p r => ih p r) entries results
          cases hres : searchEntries maxR rest.isEmpty pred path
              (fun p r c => searchDirectory provider ci maxR rest p r c)
              entries results none with
          | ok r c b =>
            rw [hres] at hE
            cases b <;> simp [SRes.cacheOf] at hE ⊢ <;> exact hE
          | thrown r c =>
            rw [hres] at hE
            simp [SRes.cacheOf] at hE ⊢
            exact hE

/-- Congruence of the entry loop for recursive calls that agree when started
without a cache and keep none. -/
theorem searchEntries_congr_none (maxR : Option Nat) (isLast : Bool)
    (pred : String → Bool) (path : String)
    (rec₁ rec₂ : String → List String → Option Cache → SRes)
    (hpres : ∀ p r, (rec₂ p r none).cacheOf = none)
    (h : ∀ p r, rec₁ p r none = rec₂ p r none) :
    ∀ (entries : List Entry) (results : List String),
      searchEntries maxR isLast pred path rec₁ entries results none =
        searchEntries maxR isLast pred path rec₂ entries results none := by
  intro entries
  induction entries with
  | nil => intro results; rfl
  | cons e es ih =>
    intro results
    obtain ⟨name, t⟩ := e
    rw [searchEntries, searchEntries]
    by_cases h1 : maxHit maxR results = true
    · rw [if_pos h1, if_pos h1]
    · rw [if_neg h1, if_neg h1]
      by_cases h2 : (!pred name) = true
      · rw [if_pos h2, if_pos h2]
        exact ih _
      · rw [if_neg h2, if_neg h2]
        by_cases h3 : isLast = true
        · rw [if_pos h3, if_pos h3]
          by_cases h4 : isFileType t = true
          · rw [if_pos h4, if_pos h4]
            exact ih _
          · rw [if_neg h4, if_neg h4]
            exact ih _
        · rw [if_neg h3, if_neg h3]
          by_cases h5 : isDirType t = true
          · rw [if_pos h5, if_pos h5]
            rw [h]
            cases hrc : rec₂ (joinPath path name) results none with
            | ok r c b =>
              have hc : c = none := by
                have := hpres (joinPath path name) results
                rw [hrc] at this
                exact this
              subst hc
              cases b with
              | true => rfl
              | false => exact ih _
            | thrown r c => rfl
          · rw [if_neg h5, if_neg h5]
            exact ih _

end RelSrc

namespace RelSrc

/-- Scanning with entries of kind exactly 64 removed from every listing gives
the same outcome as scanning the original listings (without a cap or cache). -/
theorem searchDirectory_filterSymlinks (provider : Provider) (ci : Bool) :
    ∀ (segs : List String) (path : String) (results : List String),
      searchDirectory (filterSymlinks provider) ci none segs path results none =
        searchDirectory provider ci none segs path results none := by
  intro segs
  induction segs with
  | nil => intro path results; rfl
  | cons seg rest ih =>
    intro path results
    rw [searchDirectory, searchDirectory]
    rw [if_neg (by rw [maxHit_none]; exact fun h => Bool.false_ne_true h),
      if_neg (by rw [maxHit_none]; exact fun h => Bool.false_ne_true h)]
    cases hsp : segPred ci seg with
    | none => rfl
    | some pred =>
      cases hp : provider path with
      | none =>
        have hfp : filterSymlinks provider path = none := by
          simp [filterSymlinks, hp]
        simp only [getEntries, hp, hfp]
      | some entries =>
        have hfp : filterSymlinks provider path =
            some (entries.filter (fun e => e.2 != 64)) := by
          simp [filterSymlinks, hp]
        simp only [getEntries, hp, hfp]
        rw [searchEntries_congr_none none rest.isEmpty pred path
          (fun p r c => searchDirectory (filterSymlinks provider) ci none rest p r c)
          (fun p r c => searchDirectory provider ci none rest p r c)
          (fun p r => searchDirectory_cache_none provider ci none rest p r)
          (fun p r => ih p r)]
        rw [searchEntries_filter_symlink]

/-- C10: entries whose kind is exactly SymbolicLink (64, with neither the
File bit nor the Directory bit) contribute nothing to any search: removing
all such entries from every provider listing leaves every `findFilesWithGlob`
outcome unchanged, and the entry loop of `searchDirectory` skips such an
entry outright (not appended on a final segment, not descended into on a
non-final segment) whenever the result cap has not already been reached. -/
theorem claim10_symlink_skipped :
    (∀ (provider : Provider) (ci : Bool) (root pattern : String),
      findFilesWithGlob (filterSymlinks provider) ci (some root) pattern none none =
        findFilesWithGlob provider ci (some root) pattern none none) ∧
    (∀ (maxR : Option Nat) (isLast : Bool) (pred : String → Bool) (path : String)
      (recurse : String → List String → Option Cache → SRes)
      (name : String) (es : List Entry) (results : List String) (cache : Option Cache),
      maxHit maxR results = false →
      searchEntries maxR isLast pred path recurse ((name, 64) :: es) results cache =
        searchEntries maxR isLast pred path recurse es results cache) := by
  constructor
  · intro provider ci root pattern
    rw [findFilesWithGlob, findFilesWithGlob]
    by_cases hp : pattern = ""
    · rw [if_pos hp, if_pos hp]
    · rw [if_neg hp, if_neg hp]
      by_cases hn : normalizePattern pattern = ""
      · simp [hn]
      · rw [if_neg hn, if_neg hn]
        rw [searchDirectory_filterSymlinks]
  · intro maxR isLast pred path recurse name es results cache hmax
    exact searchEntries_skip_symlink maxR isLast pred path recurse name es results cache hmax

/-- Witness for C10: the concrete tree (whose root holds a symbolic link
entry) searched with pattern `*`, and one concrete skipped entry. -/
theorem claim10_symlink_skipped_witness :
    findFilesWithGlob (filterSymlinks fsGood) false (some "root") "*" none none =
        findFilesWithGlob fsGood false (some "root") "*" none none ∧
      searchEntries none true (fun _ => true) "root"
          (fun _ r c => SRes.ok r c false) [("ln", 64)] [] none =
        searchEntries none true (fun _ => true) "root"
          (fun _ r c => SRes.ok r c false) [] [] none := by
  constructor
  · exact claim10_symlink_skipped.1 fsGood false "root" "*"
  · exact claim10_symlink_skipped.2 none true (fun _ => true) "root"
      (fun _ r c => SRes.ok r c false) "ln" [] [] none rfl

end RelSrc

namespace RelSrc

/-- Replacing one failing directory by an empty listing does not change any
scan outcome (no cache supplied). -/
theorem searchDirectory_failed_as_empty (provider : Provider) (ci : Bool)
    (maxR : Option Nat) (d : String) (hd : provider d = none) :
    ∀ (segs : List String) (path : String) (results : List String),
      searchDirectory provider ci maxR segs path results none =
        searchDirectory (overrideEmpty provider d) ci maxR segs path results none := by
  intro segs
  induction segs with
  | nil => intro path results; rfl
  | cons seg rest ih =>
    intro path results
    rw [searchDirectory, searchDirectory]
    by_cases h1 : maxHit maxR results = true
    · rw [if_pos h1, if_pos h1]
    · rw [if_neg h1, if_neg h1]
      cases hsp : segPred ci seg with
      | none => rfl
      | some pred =>
        by_cases hpath : path = d
        · subst hpath
          have hov : overrideEmpty provider path path = some [] := by
            simp [overrideEmpty]
          simp only [getEntries, hd, hov]
          rfl
        · have hov : overrideEmpty provider d path = provider path := by
            simp [overrideEmpty, hpath]
          cases hp : provider path with
          | none =>
            have hov2 : overrideEmpty provider d path = none := by rw [hov, hp]
            simp only [getEntries, hp, hov2]
          | some entries =>
            have hov2 : overrideEmpty provider d path = some entries := by rw [hov, hp]
            simp only [getEntries, hp, hov2]
            rw [searchEntries_congr_none maxR rest.isEmpty pred path
              (fun p r c => searchDirectory provider ci maxR rest p r c)
              (fun p r c => searchDirectory (overrideEmpty provider d) ci maxR rest p r c)
              (fun p r => searchDirectory_cache_none (overrideEmpty provider d) ci maxR rest p r)
              (fun p r => ih p r)]

/-- The entry loop returns normally when the recursive call does. -/
theorem searchEntries_no_throw (maxR : Option Nat) (isLast : Bool)
    (pred : String → Bool) (path : String)
    (recurse : String → List String → Option Cache → SRes)
    (hrec : ∀ p r c, ∃ r' c' b', recurse p r c = SRes.ok r' c' b') :
    ∀ (entries : List Entry) (results : List String) (cache : Option Cache),
      ∃ r c b, searchEntries maxR isLast pred path recurse entries results cache =
        SRes.ok r c b := by
  intro entries
  induction entries with
  | nil => intro results cache; exact ⟨results, cache, false, rfl⟩
  | cons e es ih =>
    intro results cache
    obtain ⟨name, t⟩ := e
    rw [searchEntries]
    by_cases h1 : maxHit maxR results = true
    · rw [if_pos h1]; exact ⟨results, cache, true, rfl⟩
    · rw [if_neg h1]
      by_cases h2 : (!pred name) = true
      · rw [if_pos h2]; exact ih _ _
      · rw [if_neg h2]
        by_cases h3 : isLast = true
        · rw [if_pos h3]
          by_cases h4 : isFileType t = true
          · rw [if_pos h4]; exact ih _ _
          · rw [if_neg h4]; exact ih _ _
        · rw [if_neg h3]
          by_cases h5 : isDirType t = true
          · rw [if_pos h5]
            obtain ⟨r', c', b', hb⟩ := hrec (joinPath path name) results cache
            rw [hb]
            cases b' with
            | true => exact ⟨r', c', true, rfl⟩
            | false => exact ih _ _
          · rw [if_neg h5]; exact ih _ _

/-- When its wildcard segments all compile, a segment yields a predicate. -/
theorem segPred_some (ci : Bool) (seg : String)
    (h : hasWildcard seg → (segmentToRegex seg).isSome = true) :
    ∃ pred, segPred ci seg = some pred := by
  rw [segPred]
  by_cases hw : hasWildcard seg = true
  · rw [if_pos hw]
    cases hsr : segmentToRegex seg with
    | none =>
      have := h hw
      rw [hsr] at this
      cases this
    | some r => exact ⟨_, rfl⟩
  · rw [if_neg hw]
    exact ⟨_, rfl⟩

/-- A scan whose pattern segments all compile returns normally (no exception
escapes, whatever the provider does). -/
theorem searchDirectory_no_throw (provider : Provider) (ci : Bool)
    (maxR : Option Nat) :
    ∀ (segs : List String),
      (∀ seg ∈ segs, hasWildcard seg → (segmentToRegex seg).isSome = true) →
      ∀ (path : String) (results : List String) (cache : Option Cache),
        ∃ r c b, searchDirectory provider ci maxR segs path results cache =
          SRes.ok r c b := by
  intro segs
  induction segs with
  | nil =>
    intro _ path results cache
    rw [searchDirectory]
    by_cases h1 : maxHit maxR results = true
    · rw [if_pos h1]; exact ⟨results, cache, true, rfl⟩
    · rw [if_neg h1]; exact ⟨results, cache, false, rfl⟩
  | cons seg rest ih =>
    intro hsegs path results cache
    rw [searchDirectory]
    by_cases h1 : maxHit maxR results = true
    · rw [if_pos h1]; exact ⟨results, cache, true, rfl⟩
    · rw [if_neg h1]
      obtain ⟨pred, hsp⟩ := segPred_some ci seg (hsegs seg (by simp))
      simp only [hsp]
      cases hge : getEntries provider path cache with
      | none => exact ⟨results, cache, false, rfl⟩
      | some ec =>
        obtain ⟨entries, cache₁⟩ := ec
        simp only []
        obtain ⟨r, c, b, hE⟩ := searchEntries_no_throw maxR rest.isEmpty pred path
          (fun p rr cc => searchDirectory provider ci maxR rest p rr cc)
          (fun p rr cc => ih (fun s hs => hsegs s (by simp [hs])) p rr cc)
          entries results cache₁
        rw [hE]
        exact ⟨r, c, b, rfl⟩

end RelSrc

namespace RelSrc

/-- C4: a failing directory-listing provider never propagates its error out
of `findFilesWithGlob`: if the provider fails for directory `d`, the whole
call behaves exactly as if `d` listed as empty, so `d`'s subtree contributes
zero matches while every sibling and other branch still contributes all of
its matches; moreover for every pattern whose wildcard segments compile the
call returns normally whatever the provider does. -/
theorem claim4_provider_failure_contained (provider : Provider) (ci : Bool)
    (root pattern : String) (maxR : Option Nat) (d : String)
    (hd : provider d = none) :
    findFilesWithGlob provider ci (some root) pattern maxR none =
      findFilesWithGlob (overrideEmpty provider d) ci (some root) pattern maxR none ∧
    ((∀ seg ∈ splitSegs (normalizePattern pattern), hasWildcard seg →
        (segmentToRegex seg).isSome = true) →
      (findFilesWithGlob provider ci (some root) pattern maxR none).isSome = true) := by
  constructor
  · rw [findFilesWithGlob, findFilesWithGlob]
    by_cases hp : pattern = ""
    · rw [if_pos hp, if_pos hp]
    · rw [if_neg hp, if_neg hp]
      by_cases hn : normalizePattern pattern = ""
      · simp [hn]
      · rw [if_neg hn, if_neg hn]
        rw [searchDirectory_failed_as_empty provider ci maxR d hd]
  · intro hsegs
    rw [findFilesWithGlob]
    by_cases hp : pattern = ""
    · rw [if_pos hp]; rfl
    · rw [if_neg hp]
      by_cases hn : normalizePattern pattern = ""
      · simp [hn]
      · rw [if_neg hn]
        obtain ⟨r, c, b, hok⟩ := searchDirectory_no_throw provider ci maxR
          (splitSegs (normalizePattern pattern)) hsegs root [] none
        rw [hok]
        rfl

/-- Witness for C4: the concrete tree `fsFail` whose `root/sub` listing
fails; the search for `*/a.js` equals the search with `root/sub` empty and
returns normally. -/
theorem claim4_provider_failure_contained_witness :
    fsFail "root/sub" = none ∧
      findFilesWithGlob fsFail false (some "root") "*/a.js" none none =
        findFilesWithGlob (overrideEmpty fsFail "root/sub") false (some "root")
          "*/a.js" none none ∧
      (findFilesWithGlob fsFail false (some "root") "*/a.js" none none).isSome = true := by
  refine ⟨rfl, ?_, ?_⟩
  · exact (claim4_provider_failure_contained fsFail false "root" "*/a.js" none
      "root/sub" rfl).1
  · exact (claim4_provider_failure_contained fsFail false "root" "*/a.js" none
      "root/sub" rfl).2 (by decide)

end RelSrc

namespace RelSrc

/-- Soundness of the entry loop without a cache: every result it produces was
already present or is `Good`, provided pushes of file entries are `Good` and
the recursive call is sound and keeps no cache. -/
theorem searchEntries_sound_none (maxR : Option Nat) (isLast : Bool)
    (pred : String → Bool) (path : String)
    (recurse : String → List String → Option Cache → SRes)
    (Good : String → Prop)
    (hpres : ∀ p r, (recurse p r none).cacheOf = none)
    (hrec : ∀ p r u, u ∈ (recurse p r none).res → u ∈ r ∨ Good u) :
    ∀ (entries : List Entry),
      (∀ name t, (name, t) ∈ entries → isFileType t = true → Good (joinPath path name)) →
      ∀ (results : List String) (u : String),
        u ∈ (searchEntries maxR isLast pred path recurse entries results none).res →
          u ∈ results ∨ Good u := by
  intro entries
  induction entries with
  | nil => intro _ results u hu; exact Or.inl hu
  | cons e es ih =>
    intro hent results u hu
    obtain ⟨name, t⟩ := e
    rw [searchEntries] at hu
    by_cases h1 : maxHit maxR results = true
    · rw [if_pos h1] at hu; exact Or.inl hu
    · rw [if_neg h1] at hu
      have hent' : ∀ name t, (name, t) ∈ es → isFileType t = true →
          Good (joinPath path name) :=
        fun n tt hm hf => hent n tt (by simp [hm]) hf
      by_cases h2 : (!pred name) = true
      · rw [if_pos h2] at hu
        exact ih hent' results u hu
      · rw [if_neg h2] at hu
        by_cases h3 : isLast = true
        · rw [if_pos h3] at hu
          by_cases h4 : isFileType t = true
          · rw [if_pos h4] at hu
            rcases ih hent' _ u hu with hin | hg
            · rcases List.mem_append.1 hin with hin2 | hin2
              · exact Or.inl hin2
              · right
                rw [List.mem_singleton] at hin2
                rw [hin2]
                exact hent name t (by simp) h4
            · exact Or.inr hg
          · rw [if_neg h4] at hu
            exact ih hent' results u hu
        · rw [if_neg h3] at hu
          by_cases h5 : isDirType t = true
          · rw [if_pos h5] at hu
            cases hrc : recurse (joinPath path name) results none with
            | ok r c b =>
              have hc : c = none := by
                have := hpres (joinPath path name) results
                rw [hrc] at this
                exact this
              subst hc
              rw [hrc] at hu
              cases b with
              | true =>
                have : u ∈ (SRes.ok r (none : Option Cache) true).res := hu
                have hr : u ∈ r := this
                have := hrec (joinPath path name) results u (by rw [hrc]; exact hr)
                exact this
              | false =>
                rcases ih hent' r u hu with hin | hg
                · exact hrec (joinPath path name) results u (by rw [hrc]; exact hin)
                · exact Or.inr hg
            | thrown r c =>
              rw [hrc] at hu
              have hr : u ∈ r := hu
              exact hrec (joinPath path name) results u (by rw [hrc]; exact hr)
          · rw [if_neg h5] at hu
            exact ih hent' results u hu

/-- Soundness of the scan without a cache: every returned path joins a
directory the provider listed with the name of an entry whose kind has the
File bit. -/
theorem searchDirectory_sound_none (provider : Provider) (ci : Bool)
    (maxR : Option Nat) :
    ∀ (segs : List String) (path : String) (results : List String) (u : String),
      u ∈ (searchDirectory provider ci maxR segs path results none).res →
        u ∈ results ∨
          ∃ d lst name t, provider d = some lst ∧ (name, t) ∈ lst ∧
            isFileType t = true ∧ u = joinPath d name := by
  intro segs
  induction segs with
  | nil =>
    intro path results u hu
    rw [searchDirectory] at hu
    by_cases h1 : maxHit maxR results = true
    · rw [if_pos h1] at hu; exact Or.inl hu
    · rw [if_neg h1] at hu; exact Or.inl hu
  | cons seg rest ih =>
    intro path results u hu
    rw [searchDirectory] at hu
    by_cases h1 : maxHit maxR results = true
    · rw [if_pos h1] at hu; exact Or.inl hu
    · rw [if_neg h1] at hu
      cases hsp : segPred ci seg with
      | none =>
        rw [hsp] at hu
        exact Or.inl hu
      | some pred =>
        rw [hsp] at hu
        cases hp : provider path with
        | none =>
          simp only [getEntries, hp] at hu
          exact Or.inl hu
        | some entries =>
          simp only [getEntries, hp] at hu
          have hE := searchEntries_sound_none maxR rest.isEmpty pred path
            (fun p r c => searchDirectory provider ci maxR rest p r c)
            (fun v => ∃ d lst name t, provider d = some lst ∧ (name, t) ∈ lst ∧
              isFileType t = true ∧ v = joinPath d name)
            (fun p r => searchDirectory_cache_none provider ci maxR rest p r)
            (fun p r v hv => ih p r v hv)
            entries
            (fun n tt hm hf => ⟨path, entries, n, tt, hp, hm, hf, rfl⟩)
            results u
          cases hres : searchEntries maxR rest.isEmpty pred path
              (fun p r c => searchDirectory provider ci maxR rest p r c)
              entries results none with
          | ok r c b =>
            rw [hres] at hu
            exact hE (by rw [hres]; exact hu)
          | thrown r c =>
            rw [hres] at hu
            exact hE (by rw [hres]; exact hu)

end RelSrc

namespace RelSrc

/-- On the final segment without a result cap, the entry loop appends exactly
the matching file entries, in listing order, without sorting. -/
theorem searchEntries_last_append (pred : String → Bool) (path : String)
    (recurse : String → List String → Option Cache → SRes) :
    ∀ (entries : List Entry) (results : List String) (cache : Option Cache),
      searchEntries none true pred path recurse entries results cache =
        SRes.ok (results ++ (entries.filter
            (fun e => pred e.1 && isFileType e.2)).map
            (fun e => joinPath path e.1)) cache false := by
  intro entries
  induction entries with
  | nil => intro results cache; simp [searchEntries]
  | cons e es ih =>
    intro results cache
    obtain ⟨name, t⟩ := e
    rw [searchEntries]
    rw [if_neg (by rw [maxHit_none]; exact fun h => Bool.false_ne_true h)]
    by_cases h2 : pred name = true
    · rw [if_neg (by rw [h2]; exact fun h => Bool.false_ne_true (by simpa using h))]
      rw [if_pos rfl]
      by_cases h4 : isFileType t = true
      · rw [if_pos h4]
        rw [ih]
        have hkeep : ((name, t) :: es).filter (fun e => pred e.1 && isFileType e.2) =
            (name, t) :: es.filter (fun e => pred e.1 && isFileType e.2) := by
          simp [List.filter, h2, h4]
        rw [hkeep]
        simp
      · rw [if_neg h4]
        rw [ih]
        have hcond : (pred name && isFileType t) = false := by
          rw [Bool.eq_false_iff]
          intro hcon
          exact h4 (((Bool.and_eq_true _ _).mp hcon).2)
        have hdrop : ((name, t) :: es).filter (fun e => pred e.1 && isFileType e.2) =
            es.filter (fun e => pred e.1 && isFileType e.2) := by
          simp only [List.filter, hcond]
        rw [hdrop]
    · have h2' : (!pred name) = true := by simp [h2]
      rw [if_pos h2']
      rw [ih]
      have hcond : (pred name && isFileType t) = false := by
        rw [Bool.eq_false_iff]
        intro hcon
        exact h2 (((Bool.and_eq_true _ _).mp hcon).1)
      have hdrop : ((name, t) :: es).filter (fun e => pred e.1 && isFileType e.2) =
          es.filter (fun e => pred e.1 && isFileType e.2) := by
        simp only [List.filter, hcond]
      rw [hdrop]

/-- C7: every URI returned by `findFilesWithGlob` comes from a provider
directory entry whose kind has the File bit set (an entry whose kind is only
Directory is never returned), and on the final segment matching entries are
appended in the provider's iteration order, as a filter of the listing,
without sorting. -/
theorem claim7_only_files_in_order :
    (∀ (provider : Provider) (ci : Bool) (root pattern : String)
      (maxR : Option Nat) (l : List String) (u : String),
      findFilesWithGlob provider ci (some root) pattern maxR none = some l →
      u ∈ l →
      ∃ d lst name t, provider d = some lst ∧ (name, t) ∈ lst ∧
        isFileType t = true ∧ u = joinPath d name) ∧
    (∀ (pred : String → Bool) (path : String)
      (recurse : String → List String → Option Cache → SRes)
      (entries : List Entry) (results : List String) (cache : Option Cache),
      searchEntries none true pred path recurse entries results cache =
        SRes.ok (results ++ (entries.filter
            (fun e => pred e.1 && isFileType e.2)).map
            (fun e => joinPath path e.1)) cache false) := by
  constructor
  · intro provider ci root pattern maxR l u hl hu
    rw [findFilesWithGlob] at hl
    by_cases hp : pattern = ""
    · rw [if_pos hp] at hl
      cases hl
      cases hu
    · rw [if_neg hp] at hl
      by_cases hn : normalizePattern pattern = ""
      · simp only [hn, if_pos rfl] at hl
        simp at hl
        subst hl
        cases hu
      · rw [if_neg hn] at hl
        cases hres : searchDirectory provider ci maxR
            (splitSegs (normalizePattern pattern)) root [] none with
        | ok r c b =>
          rw [hres] at hl
          have hlr : l = r := by
            simpa using hl.symm
          subst hlr
          have := searchDirectory_sound_none provider ci maxR
            (splitSegs (normalizePattern pattern)) root [] u (by rw [hres]; exact hu)
          rcases this with hin | hg
          · cases hin
          · exact hg
        | thrown r c =>
          rw [hres] at hl
          cases hl
  · intro pred path recurse entries results cache
    exact searchEntries_last_append pred path recurse entries results cache

/-- Witness for C7 on the concrete tree: the returned URI `root/a.js` comes
from the file entry `a.js` of the root listing, and the final-segment loop on
the root listing appends the two js files in listing order. -/
theorem claim7_only_files_in_order_witness :
    (∃ d lst name t, fsGood d = some lst ∧ (name, t) ∈ lst ∧
      isFileType t = true ∧ "root/a.js" = joinPath d name) ∧
    searchEntries none true (fun n => regexTest false [RAtom.star, RAtom.lit '.',
        RAtom.lit 'j', RAtom.lit 's'] n) "root"
        (fun _ r c => SRes.ok r c false)
        [("src", 2), ("a.js", 1), ("b.js", 1), ("ln", 64)] [] none =
      SRes.ok ["root/a.js", "root/b.js"] none false := by
  constructor
  · exact claim7_only_files_in_order.1 fsGood false "root" "*.js" none
      ["root/a.js", "root/b.js"] "root/a.js" (by decide) (by decide)
  · rw [claim7_only_files_in_order.2]
    decide

end RelSrc

namespace RelSrc

/-- Entry-loop simulation between a cached run and an uncached run: if every
cache entry agrees with the provider and the recursive calls simulate each
other (same results and flag, caches still agreeing), then the two loops
produce the same results and flag, and the cached loop's cache still agrees. -/
theorem searchEntries_cache_agree (provider : Provider) (maxR : Option Nat)
    (isLast : Bool) (pred : String → Bool) (path : String)
    (rec₁ rec₂ : String → List String → Option Cache → SRes)
    (hrec : ∀ (p : String) (r : List String) (c : Cache),
      (∀ p' l, c.lookup p' = some l → provider p' = some l) →
      (∃ r' c' b, rec₁ p r (some c) = SRes.ok r' (some c') b ∧
          rec₂ p r none = SRes.ok r' none b ∧
          (∀ p' l, c'.lookup p' = some l → provider p' = some l)) ∨
      (∃ r' c', rec₁ p r (some c) = SRes.thrown r' (some c') ∧
          rec₂ p r none = SRes.thrown r' none ∧
          (∀ p' l, c'.lookup p' = some l → provider p' = some l))) :
    ∀ (entries : List Entry) (results : List String) (c : Cache),
      (∀ p' l, c.lookup p' = some l → provider p' = some l) →
      (∃ r' c' b,
          searchEntries maxR isLast pred path rec₁ entries results (some c) =
            SRes.ok r' (some c') b ∧
          searchEntries maxR isLast pred path rec₂ entries results none =
            SRes.ok r' none b ∧
          (∀ p' l, c'.lookup p' = some l → provider p' = some l)) ∨
      (∃ r' c',
          searchEntries maxR isLast pred path rec₁ entries results (some c) =
            SRes.thrown r' (some c') ∧
          searchEntries maxR isLast pred path rec₂ entries results none =
            SRes.thrown r' none ∧
          (∀ p' l, c'.lookup p' = some l → provider p' = some l)) := by
  intro entries
  induction entries with
  | nil =>
    intro results c hc
    exact Or.inl ⟨results, c, false, rfl, rfl, hc⟩
  | cons e es ih =>
    intro results c hc
    obtain ⟨name, t⟩ := e
    rw [searchEntries, searchEntries]
    by_cases h1 : maxHit maxR results = true
    · rw [if_pos h1, if_pos h1]
      exact Or.inl ⟨results, c, true, rfl, rfl, hc⟩
    · rw [if_neg h1, if_neg h1]
      by_cases h2 : (!pred name) = true
      · rw [if_pos h2, if_pos h2]
        exact ih results c hc
      · rw [if_neg h2, if_neg h2]
        by_cases h3 : isLast = true
        · rw [if_pos h3, if_pos h3]
          by_cases h4 : isFileType t = true
          · rw [if_pos h4, if_pos h4]
            exact ih _ c hc
          · rw [if_neg h4, if_neg h4]
            exact ih results c hc
        · rw [if_neg h3, if_neg h3]
          by_cases h5 : isDirType t = true
          · rw [if_pos h5, if_pos h5]
            rcases hrec (joinPath path name) results c hc with
              ⟨r', c', b, e1, e2, hc'⟩ | ⟨r', c', e1, e2, hc'⟩
            · rw [e1, e2]
              cases b with
              | true => exact Or.inl ⟨r', c', true, rfl, rfl, hc'⟩
              | false => exact ih r' c' hc'
            · rw [e1, e2]
              exact Or.inr ⟨r', c', rfl, rfl, hc'⟩
          · rw [if_neg h5, if_neg h5]
            exact ih results c hc

/-- Scan simulation between a cached run and an uncached run: with every
cache entry agreeing with the provider, both runs produce the same results
and flag (or throw with the same results), and the cache keeps agreeing. -/
theorem searchDirectory_cache_agree (provider : Provider) (ci : Bool)
    (maxR : Option Nat) :
    ∀ (segs : List String) (path : String) (results : List String) (c : Cache),
      (∀ p' l, c.lookup p' = some l → provider p' = some l) →
      (∃ r' c' b,
          searchDirectory provider ci maxR segs path results (some c) =
            SRes.ok r' (some c') b ∧
          searchDirectory provider ci maxR segs path results none =
            SRes.ok r' none b ∧
          (∀ p' l, c'.lookup p' = some l → provider p' = some l)) ∨
      (∃ r' c',
          searchDirectory provider ci maxR segs path results (some c) =
            SRes.thrown r' (some c') ∧
          searchDirectory provider ci maxR segs path results none =
            SRes.thrown r' none ∧
          (∀ p' l, c'.lookup p' = some l → provider p' = some l)) := by
  intro segs
  induction segs with
  | nil =>
    intro path results c hc
    rw [searchDirectory, searchDirectory]
    by_cases h1 : maxHit maxR results = true
    · rw [if_pos h1, if_pos h1]
      exact Or.inl ⟨results, c, true, rfl, rfl, hc⟩
    · rw [if_neg h1, if_neg h1]
      exact Or.inl ⟨results, c, false, rfl, rfl, hc⟩
  | cons seg rest ih =>
    intro path results c hc
    rw [searchDirectory, searchDirectory]
    by_cases h1 : maxHit maxR results = true
    · rw [if_pos h1, if_pos h1]
      exact Or.inl ⟨results, c, true, rfl, rfl, hc⟩
    · rw [if_neg h1, if_neg h1]
      cases hsp : segPred ci seg with
      | none =>
        simp only [hsp]
        exact Or.inr ⟨results, c, rfl, rfl, hc⟩
      | some pred =>
        simp only [hsp]
        have hEsim := searchEntries_cache_agree provider maxR rest.isEmpty pred path
          (fun p r cc => searchDirectory provider ci maxR rest p r cc)
          (fun p r cc => searchDirectory provider ci maxR rest p r cc)
          (fun p r cc hcc => ih p r cc hcc)
        cases hlk : c.lookup path with
        | some entries =>
          have hpv : provider path = some entries := hc path entries hlk
          have hge₁ : getEntries provider path (some c) = some (entries, some c) := by
            simp [getEntries, hlk]
          have hge₂ : getEntries provider path none = some (entries, none) := by
            simp [getEntries, hpv]
          simp only [hge₁, hge₂]
          rcases hEsim entries results c hc with
            ⟨r', c', b, e1, e2, hc'⟩ | ⟨r', c', e1, e2, hc'⟩
          · exact Or.inl ⟨r', c', b, by rw [e1], by rw [e2], hc'⟩
          · exact Or.inl ⟨r', c', false, by rw [e1], by rw [e2], hc'⟩
        | none =>
          cases hpv : provider path with
          | none =>
            have hge₁ : getEntries provider path (some c) = none := by
              simp [getEntries, hlk, hpv]
            have hge₂ : getEntries provider path none = none := by
              simp [getEntries, hpv]
            simp only [hge₁, hge₂]
            exact Or.inl ⟨results, c, false, rfl, rfl, hc⟩
          | some entries =>
            have hge₁ : getEntries provider path (some c) =
                some (entries, some ((path, entries) :: c)) := by
              simp [getEntries, hlk, hpv]
            have hge₂ : getEntries provider path none = some (entries, none) := by
              simp [getEntries, hpv]
            simp only [hge₁, hge₂]
            have hc₂ : ∀ p' l, ((path, entries) :: c).lookup p' = some l →
                provider p' = some l := by
              intro p' l hl
              rw [List.lookup] at hl
              by_cases hp' : (p' == path) = true
              · simp only [hp'] at hl
                cases hl
                rw [eq_of_beq hp']
                exact hpv
              · have hp'' : (p' == path) = false := by simpa using hp'
                simp only [hp''] at hl
                exact hc p' l hl
            rcases hEsim entries results _ hc₂ with
              ⟨r', c', b, e1, e2, hc'⟩ | ⟨r', c', e1, e2, hc'⟩
            · exact Or.inl ⟨r', c', b, by rw [e1], by rw [e2], hc'⟩
            · exact Or.inl ⟨r', c', false, by rw [e1], by rw [e2], hc'⟩

end RelSrc

namespace RelSrc

/-- C6: supplying a directory cache never changes the results: for every
deterministic provider, a call with any cache whose entries agree with the
provider (in particular a fresh empty cache) returns exactly the same value
as the call with no cache — the cache can only change the number of provider
calls. -/
theorem claim6_cache_transparent (provider : Provider) (ci : Bool)
    (root pattern : String) (maxR : Option Nat) (c : Cache)
    (hc : ∀ p l, c.lookup p = some l → provider p = some l) :
    findFilesWithGlob provider ci (some root) pattern maxR (some c) =
      findFilesWithGlob provider ci (some root) pattern maxR none := by
  rw [findFilesWithGlob, findFilesWithGlob]
  by_cases hp : pattern = ""
  · rw [if_pos hp, if_pos hp]
  · rw [if_neg hp, if_neg hp]
    by_cases hn : normalizePattern pattern = ""
    · simp [hn]
    · rw [if_neg hn, if_neg hn]
      rcases searchDirectory_cache_agree provider ci maxR
          (splitSegs (normalizePattern pattern)) root [] c hc with
        ⟨r', c', b, e1, e2, _⟩ | ⟨r', c', e1, e2, _⟩
      · rw [e1, e2]
      · rw [e1, e2]

/-- Witness for C6: the concrete tree searched with a fresh empty cache. -/
theorem claim6_cache_transparent_witness :
    findFilesWithGlob fsGood false (some "root") "src/*.js" none (some []) =
      findFilesWithGlob fsGood false (some "root") "src/*.js" none none := by
  exact claim6_cache_transparent fsGood false "root" "src/*.js" none []
    (fun p l hl => nomatch hl)

end RelSrc

namespace RelSrc

/-- The entry loop only appends to the shared results array. -/
theorem searchEntries_mono (maxR : Option Nat) (isLast : Bool)
    (pred : String → Bool) (path : String)
    (recurse : String → List String → Option Cache → SRes)
    (hrec : ∀ p r c, ∃ t, (recurse p r c).res = r ++ t) :
    ∀ (entries : List Entry) (results : List String) (cache : Option Cache),
      ∃ t, (searchEntries maxR isLast pred path recurse entries results cache).res =
        results ++ t := by
  intro entries
  induction entries with
  | nil => intro results cache; exact ⟨[], by simp [searchEntries, SRes.res]⟩
  | cons e es ih =>
    intro results cache
    obtain ⟨name, t⟩ := e
    rw [searchEntries]
    by_cases h1 : maxHit maxR results = true
    · rw [if_pos h1]; exact ⟨[], by simp [SRes.res]⟩
    · rw [if_neg h1]
      by_cases h2 : (!pred name) = true
      · rw [if_pos h2]; exact ih _ _
      · rw [if_neg h2]
        by_cases h3 : isLast = true
        · rw [if_pos h3]
          by_cases h4 : isFileType t = true
          · rw [if_pos h4]
            obtain ⟨t2, ht2⟩ := ih (results ++ [joinPath path name]) cache
            exact ⟨[joinPath path name] ++ t2, by rw [ht2]; simp⟩
          · rw [if_neg h4]; exact ih _ _
        · rw [if_neg h3]
          by_cases h5 : isDirType t = true
          · rw [if_pos h5]
            obtain ⟨t1, ht1⟩ := hrec (joinPath path name) results cache
            cases hrc : recurse (joinPath path name) results cache with
            | ok r₁ c₁ b =>
              have hr₁ : r₁ = results ++ t1 := by
                rw [hrc] at ht1
                exact ht1
              cases b with
              | true => exact ⟨t1, by simp [SRes.res, hr₁]⟩
              | false =>
                obtain ⟨t2, ht2⟩ := ih r₁ c₁
                exact ⟨t1 ++ t2, by rw [ht2, hr₁]; simp⟩
            | thrown r₁ c₁ =>
              have hr₁ : r₁ = results ++ t1 := by
                rw [hrc] at ht1
                exact ht1
              exact ⟨t1, by simp [SRes.res, hr₁]⟩
          · rw [if_neg h5]; exact ih _ _

/-- Unfolding of `searchDirectory` on a nonempty segment list once the cap
check passed, the segment compiled and the listing was obtained. -/
theorem searchDirectory_cons_entries (provider : Provider) (ci : Bool)
    (maxR : Option Nat) (seg : String) (rest : List String) (path : String)
    (results : List String) (cache : Option Cache) (pred : String → Bool)
    (entries : List Entry) (cache₁ : Option Cache)
    (h1 : maxHit maxR results = false)
    (hsp : segPred ci seg = some pred)
    (hge : getEntries provider path cache = some (entries, cache₁)) :
    searchDirectory provider ci maxR (seg :: rest) path results cache =
      match searchEntries maxR rest.isEmpty pred path
          (fun p r c => searchDirectory provider ci maxR rest p r c)
          entries results cache₁ with
      | SRes.thrown r c => SRes.ok r c false
      | SRes.ok r c b => SRes.ok r c b := by
  rw [searchDirectory]
  rw [if_neg (by rw [h1]; exact fun hx => Bool.false_ne_true hx)]
  simp only [hsp, hge]

/-- The scan only appends to the shared results array. -/
theorem searchDirectory_mono (provider : Provider) (ci : Bool) (maxR : Option Nat) :
    ∀ (segs : List String) (path : String) (results : List String)
      (cache : Option Cache),
      ∃ t, (searchDirectory provider ci maxR segs path results cache).res =
        results ++ t := by
  intro segs
  induction segs with
  | nil =>
    intro path results cache
    rw [searchDirectory]
    by_cases h1 : maxHit maxR results = true
    · rw [if_pos h1]; exact ⟨[], by simp [SRes.res]⟩
    · rw [if_neg h1]; exact ⟨[], by simp [SRes.res]⟩
  | cons seg rest ih =>
    intro path results cache
    by_cases h1 : maxHit maxR results = true
    · rw [searchDirectory]
      rw [if_pos h1]
      exact ⟨[], by simp [SRes.res]⟩
    · cases hsp : segPred ci seg with
      | none =>
        rw [searchDirectory]
        rw [if_neg h1]
        simp only [hsp]
        exact ⟨[], by simp [SRes.res]⟩
      | some pred =>
        cases hge : getEntries provider path cache with
        | none =>
          rw [searchDirectory]
          rw [if_neg h1]
          simp only [hsp, hge]
          exact ⟨[], by simp [SRes.res]⟩
        | some ec =>
          obtain ⟨entries, cache₁⟩ := ec
          obtain ⟨t, ht⟩ := searchEntries_mono maxR rest.isEmpty pred path
            (fun p r c => searchDirectory provider ci maxR rest p r c)
            (fun p r c => ih p r c) entries results cache₁
          refine ⟨t, ?_⟩
          rw [searchDirectory_cons_entries provider ci maxR seg rest path results
            cache pred entries cache₁ (by simpa using h1) hsp hge]
          cases hres : searchEntries maxR rest.isEmpty pred path
              (fun p r c => searchDirectory provider ci maxR rest p r c)
              entries results cache₁ with
          | ok r c b =>
            rw [hres] at ht
            simpa [SRes.res] using ht
          | thrown r c =>
            rw [hres] at ht
            simpa [SRes.res] using ht

/-- Without a cap the entry loop never reports the cap reached. -/
theorem searchEntries_noflag (isLast : Bool) (pred : String → Bool) (path : String)
    (recurse : String → List String → Option Cache → SRes)
    (hrec : ∀ p r c rr cc, recurse p r c ≠ SRes.ok rr cc true) :
    ∀ (entries : List Entry) (results : List String) (cache : Option Cache)
      (rr : List String) (cc : Option Cache),
      searchEntries none isLast pred path recurse entries results cache ≠
        SRes.ok rr cc true := by
  intro entries
  induction entries with
  | nil => intro results cache rr cc h; rw [searchEntries] at h; cases h
  | cons e es ih =>
    intro results cache rr cc h
    obtain ⟨name, t⟩ := e
    rw [searchEntries] at h
    rw [if_neg (by rw [maxHit_none]; exact fun hx => Bool.false_ne_true hx)] at h
    by_cases h2 : (!pred name) = true
    · rw [if_pos h2] at h; exact ih _ _ _ _ h
    · rw [if_neg h2] at h
      by_cases h3 : isLast = true
      · rw [if_pos h3] at h
        by_cases h4 : isFileType t = true
        · rw [if_pos h4] at h; exact ih _ _ _ _ h
        · rw [if_neg h4] at h; exact ih _ _ _ _ h
      · rw [if_neg h3] at h
        by_cases h5 : isDirType t = true
        · rw [if_pos h5] at h
          cases hrc : recurse (joinPath path name) results cache with
          | ok r₁ c₁ b =>
            rw [hrc] at h
            cases b with
            | true => exact hrec _ _ _ _ _ hrc
            | false => exact ih _ _ _ _ h
          | thrown r₁ c₁ =>
            rw [hrc] at h
            cases h
        · rw [if_neg h5] at h; exact ih _ _ _ _ h

/-- Without a cap the scan never reports the cap reached. -/
theorem searchDirectory_noflag (provider : Provider) (ci : Bool) :
    ∀ (segs : List String) (path : String) (results : List String)
      (cache : Option Cache) (rr : List String) (cc : Option Cache),
      searchDirectory provider ci none segs path results cache ≠
        SRes.ok rr cc true := by
  intro segs
  induction segs with
  | nil =>
    intro path results cache rr cc h
    rw [searchDirectory] at h
    rw [if_neg (by rw [maxHit_none]; exact fun hx => Bool.false_ne_true hx)] at h
    cases h
  | cons seg rest ih =>
    intro path results cache rr cc h
    rw [searchDirectory] at h
    rw [if_neg (by rw [maxHit_none]; exact fun hx => Bool.false_ne_true hx)] at h
    cases hsp : segPred ci seg with
    | none => rw [hsp] at h; cases h
    | some pred =>
      rw [hsp] at h
      cases hge : getEntries provider path cache with
      | none => rw [hge] at h; simp at h
      | some ec =>
        obtain ⟨entries, cache₁⟩ := ec
        rw [hge] at h
        simp only [] at h
        cases hres : searchEntries none rest.isEmpty pred path
            (fun p r c => searchDirectory provider ci none rest p r c)
            entries results cache₁ with
        | ok r c b =>
          rw [hres] at h
          cases b with
          | true =>
            exact searchEntries_noflag rest.isEmpty pred path
              (fun p r c => searchDirectory provider ci none rest p r c)
              (fun p r c rr cc => ih p r c rr cc)
              entries results cache₁ r c hres
          | false => cases h
        | thrown r c =>
          rw [hres] at h
          cases h

end RelSrc

namespace RelSrc

/-- With cap `k`, the entry loop never grows the results past `k`. -/
theorem searchEntries_bound (k : Nat) (isLast : Bool) (pred : String → Bool)
    (path : String) (recurse : String → List String → Option Cache → SRes)
    (hrec : ∀ p r c, r.length ≤ k → ((recurse p r c).res).length ≤ k) :
    ∀ (entries : List Entry) (results : List String) (cache : Option Cache),
      results.length ≤ k →
      ((searchEntries (some k) isLast pred path recurse entries results cache).res).length ≤ k := by
  intro entries
  induction entries with
  | nil => intro results cache h; simpa [searchEntries, SRes.res] using h
  | cons e es ih =>
    intro results cache h
    obtain ⟨name, t⟩ := e
    rw [searchEntries]
    by_cases h1 : maxHit (some k) results = true
    · rw [if_pos h1]; simpa [SRes.res] using h
    · rw [if_neg h1]
      have hlt : results.length < k := by
        simp only [maxHit, decide_eq_true_eq] at h1
        omega
      by_cases h2 : (!pred name) = true
      · rw [if_pos h2]; exact ih results cache h
      · rw [if_neg h2]
        by_cases h3 : isLast = true
        · rw [if_pos h3]
          by_cases h4 : isFileType t = true
          · rw [if_pos h4]
            apply ih
            simp only [List.length_append, List.length_singleton]
            omega
          · rw [if_neg h4]; exact ih results cache h
        · rw [if_neg h3]
          by_cases h5 : isDirType t = true
          · rw [if_pos h5]
            have hb := hrec (joinPath path name) results cache h
            cases hrc : recurse (joinPath path name) results cache with
            | ok r₁ c₁ b =>
              rw [hrc] at hb
              cases b with
              | true => simpa [SRes.res] using hb
              | false => exact ih r₁ c₁ (by simpa [SRes.res] using hb)
            | thrown r₁ c₁ =>
              rw [hrc] at hb
              simpa [SRes.res] using hb
          · rw [if_neg h5]; exact ih results cache h

/-- With cap `k`, the scan never grows the results past `k`. -/
theorem searchDirectory_bound (provider : Provider) (ci : Bool) (k : Nat) :
    ∀ (segs : List String) (path : String) (results : List String)
      (cache : Option Cache), results.length ≤ k →
      ((searchDirectory provider ci (some k) segs path results cache).res).length ≤ k := by
  intro segs
  induction segs with
  | nil =>
    intro path results cache h
    rw [searchDirectory]
    by_cases h1 : maxHit (some k) results = true
    · rw [if_pos h1]; simpa [SRes.res] using h
    · rw [if_neg h1]; simpa [SRes.res] using h
  | cons seg rest ih =>
    intro path results cache h
    by_cases h1 : maxHit (some k) results = true
    · rw [searchDirectory]
      rw [if_pos h1]
      simpa [SRes.res] using h
    · cases hsp : segPred ci seg with
      | none =>
        rw [searchDirectory]
        rw [if_neg h1]
        simp only [hsp]
        simpa [SRes.res] using h
      | some pred =>
        cases hge : getEntries provider path cache with
        | none =>
          rw [searchDirectory]
          rw [if_neg h1]
          simp only [hsp, hge]
          simpa [SRes.res] using h
        | some ec =>
          obtain ⟨entries, cache₁⟩ := ec
          rw [searchDirectory_cons_entries provider ci (some k) seg rest path results
            cache pred entries cache₁ (by simpa using h1) hsp hge]
          have hb := searchEntries_bound k rest.isEmpty pred path
            (fun p r c => searchDirectory provider ci (some k) rest p r c)
            (fun p r c hr => ih p r c hr) entries results cache₁ h
          cases hres : searchEntries (some k) rest.isEmpty pred path
              (fun p r c => searchDirectory provider ci (some k) rest p r c)
              entries results cache₁ with
          | ok r c b =>
            rw [hres] at hb
            simpa [SRes.res] using hb
          | thrown r c =>
            rw [hres] at hb
            simpa [SRes.res] using hb

end RelSrc

namespace RelSrc

/-- Correspondence of the capped entry loop with the uncapped one: when the
uncapped loop's final results fit under the cap `k`, the capped loop either
stops early with exactly those results and the cap flag, or behaves
identically. -/
theorem searchEntries_cap_corr (k : Nat) (isLast : Bool) (pred : String → Bool)
    (path : String)
    (recU recB : String → List String → Option Cache → SRes)
    (hpresU : ∀ p r, (recU p r none).cacheOf = none)
    (hmonoU : ∀ p r c, ∃ t, (recU p r c).res = r ++ t)
    (hnoflagU : ∀ p r c rr cc, recU p r c ≠ SRes.ok rr cc true)
    (hcorr : ∀ p r, ((recU p r none).res).length ≤ k →
      (recB p r none = SRes.ok ((recU p r none).res) none true ∧
        k ≤ ((recU p r none).res).length) ∨
      recB p r none = recU p r none) :
    ∀ (entries : List Entry) (results : List String),
      ((searchEntries none isLast pred path recU entries results none).res).length ≤ k →
      (searchEntries (some k) isLast pred path recB entries results none =
          SRes.ok ((searchEntries none isLast pred path recU entries results none).res)
            none true ∧
        k ≤ ((searchEntries none isLast pred path recU entries results none).res).length) ∨
      searchEntries (some k) isLast pred path recB entries results none =
        searchEntries none isLast pred path recU entries results none := by
  intro entries
  induction entries with
  | nil => intro results _; exact Or.inr rfl
  | cons e es ih =>
    intro results hlen
    obtain ⟨name, t⟩ := e
    by_cases hk : maxHit (some k) results = true
    · left
      have hkle : k ≤ results.length := by
        simpa [maxHit] using hk
      obtain ⟨tl, htl⟩ := searchEntries_mono none isLast pred path recU hmonoU
        ((name, t) :: es) results none
      have htl0 : tl = [] := by
        rw [htl] at hlen
        simp only [List.length_append] at hlen
        have : tl.length = 0 := by omega
        exact List.eq_nil_of_length_eq_zero this
      subst htl0
      rw [List.append_nil] at htl
      constructor
      · rw [htl]
        rw [searchEntries]
        rw [if_pos hk]
      · rw [htl]
        exact hkle
    · rw [searchEntries] at hlen
      rw [searchEntries, searchEntries]
      rw [if_neg (by rw [maxHit_none]; exact fun hx => Bool.false_ne_true hx)] at hlen
      rw [if_neg hk]
      by_cases h2 : (!pred name) = true
      · rw [if_pos h2] at hlen ⊢
        rw [if_pos h2]
        exact ih results hlen
      · rw [if_neg h2] at hlen ⊢
        rw [if_neg h2]
        by_cases h3 : isLast = true
        · rw [if_pos h3] at hlen ⊢
          rw [if_pos h3]
          by_cases h4 : isFileType t = true
          · rw [if_pos h4] at hlen ⊢
            rw [if_pos h4]
            exact ih _ hlen
          · rw [if_neg h4] at hlen ⊢
            rw [if_neg h4]
            exact ih results hlen
        · rw [if_neg h3] at hlen ⊢
          rw [if_neg h3]
          by_cases h5 : isDirType t = true
          · rw [if_pos h5] at hlen ⊢
            rw [if_pos h5]
            cases hU : recU (joinPath path name) results none with
            | thrown r₁ c₁ =>
              have hc₁ : c₁ = none := by
                have := hpresU (joinPath path name) results
                rw [hU] at this
                exact this
              subst hc₁
              rw [hU] at hlen
              have hlen₁ : r₁.length ≤ k := hlen
              rcases hcorr (joinPath path name) results
                  (by rw [hU]; exact hlen₁) with ⟨hB, hkle⟩ | hBU
              · rw [hU] at hB hkle
                left
                constructor
                · rw [hB]
                  rfl
                · exact hkle
              · rw [hU] at hBU
                right
                rw [hBU]
                rfl
            | ok r₁ c₁ b =>
              cases b with
              | true => exact absurd hU (hnoflagU _ _ _ _ _)
              | false =>
                have hc₁ : c₁ = none := by
                  have := hpresU (joinPath path name) results
                  rw [hU] at this
                  exact this
                subst hc₁
                rw [hU] at hlen
                have hlen₁ : ((searchEntries none isLast pred path recU
                    es r₁ none).res).length ≤ k := hlen
                obtain ⟨tl, htl⟩ := searchEntries_mono none isLast pred path recU
                  hmonoU es r₁ none
                have hr₁len : r₁.length ≤ k := by
                  have h := hlen₁
                  rw [htl] at h
                  simp only [List.length_append] at h
                  omega
                rcases hcorr (joinPath path name) results
                    (by rw [hU]; exact hr₁len) with ⟨hB, hkle⟩ | hBU
                · rw [hU] at hB hkle
                  have hkle₁ : k ≤ r₁.length := hkle
                  have htl0 : tl = [] := by
                    have h := hlen₁
                    rw [htl] at h
                    simp only [List.length_append] at h
                    have : tl.length = 0 := by omega
                    exact List.eq_nil_of_length_eq_zero this
                  subst htl0
                  rw [List.append_nil] at htl
                  left
                  constructor
                  · rw [hB]
                    show SRes.ok r₁ (none : Option Cache) true =
                      SRes.ok ((searchEntries none isLast pred path recU
                        es r₁ none).res) none true
                    rw [htl]
                  · show k ≤ ((searchEntries none isLast pred path recU
                      es r₁ none).res).length
                    rw [htl]
                    exact hkle₁
                · rw [hU] at hBU
                  rcases ih r₁ hlen₁ with ⟨hBes, hklees⟩ | hBUes
                  · left
                    constructor
                    · rw [hBU]
                      exact hBes
                    · exact hklees
                  · right
                    rw [hBU]
                    exact hBUes
          · rw [if_neg h5] at hlen ⊢
            rw [if_neg h5]
            exact ih results hlen

end RelSrc

namespace RelSrc

/-- A listing read without a cache keeps no cache and echoes the provider. -/
theorem getEntries_none_inv (provider : Provider) (path : String)
    (entries : List Entry) (cache₁ : Option Cache)
    (hge : getEntries provider path none = some (entries, cache₁)) :
    provider path = some entries ∧ cache₁ = none := by
  cases hp : provider path with
  | none => simp [getEntries, hp] at hge
  | some l =>
    simp only [getEntries, hp] at hge
    obtain ⟨h1, h2⟩ := Prod.mk.injEq .. ▸ (Option.some.injEq .. ▸ hge)
    exact ⟨by rw [h1], h2.symm⟩

/-- Correspondence of the capped scan with the uncapped scan: when the
uncapped scan's final results fit under the cap `k`, the capped scan either
stops early with exactly those results and the cap flag, or behaves
identically. -/
theorem searchDirectory_cap_corr (provider : Provider) (ci : Bool) (k : Nat) :
    ∀ (segs : List String) (path : String) (results : List String),
      ((searchDirectory provider ci none segs path results none).res).length ≤ k →
      (searchDirectory provider ci (some k) segs path results none =
          SRes.ok ((searchDirectory provider ci none segs path results none).res)
            none true ∧
        k ≤ ((searchDirectory provider ci none segs path results none).res).length) ∨
      searchDirectory provider ci (some k) segs path results none =
        searchDirectory provider ci none segs path results none := by
  intro segs
  induction segs with
  | nil =>
    intro path results hlen
    have hU : searchDirectory provider ci none ([] : List String) path results none =
        SRes.ok results none false := by
      rw [searchDirectory]
      rfl
    by_cases hk : maxHit (some k) results = true
    · have hB : searchDirectory provider ci (some k) ([] : List String) path results none =
          SRes.ok results none true := by
        rw [searchDirectory]
        rw [if_pos hk]
      left
      rw [hB, hU]
      exact ⟨rfl, by simpa [maxHit] using hk⟩
    · have hB : searchDirectory provider ci (some k) ([] : List String) path results none =
          SRes.ok results none false := by
        rw [searchDirectory]
        rw [if_neg hk]
      right
      rw [hB, hU]
  | cons seg rest ih =>
    intro path results hlen
    by_cases hk : maxHit (some k) results = true
    · have hB : searchDirectory provider ci (some k) (seg :: rest) path results none =
          SRes.ok results none true := by
        rw [searchDirectory]
        rw [if_pos hk]
      obtain ⟨t, ht⟩ := searchDirectory_mono provider ci none (seg :: rest) path results none
      have hkle : k ≤ results.length := by simpa [maxHit] using hk
      have ht0 : t = [] := by
        rw [ht] at hlen
        simp only [List.length_append] at hlen
        have : t.length = 0 := by omega
        exact List.eq_nil_of_length_eq_zero this
      subst ht0
      rw [List.append_nil] at ht
      left
      rw [hB, ht]
      exact ⟨rfl, hkle⟩
    · cases hsp : segPred ci seg with
      | none =>
        have hU : searchDirectory provider ci none (seg :: rest) path results none =
            SRes.thrown results none := by
          rw [searchDirectory]
          rw [if_neg (by rw [maxHit_none]; exact fun hx => Bool.false_ne_true hx)]
          simp only [hsp]
        have hB : searchDirectory provider ci (some k) (seg :: rest) path results none =
            SRes.thrown results none := by
          rw [searchDirectory]
          rw [if_neg hk]
          simp only [hsp]
        right
        rw [hB, hU]
      | some pred =>
        cases hge : getEntries provider path none with
        | none =>
          have hU : searchDirectory provider ci none (seg :: rest) path results none =
              SRes.ok results none false := by
            rw [searchDirectory]
            rw [if_neg (by rw [maxHit_none]; exact fun hx => Bool.false_ne_true hx)]
            simp only [hsp, hge]
          have hB : searchDirectory provider ci (some k) (seg :: rest) path results none =
              SRes.ok results none false := by
            rw [searchDirectory]
            rw [if_neg hk]
            simp only [hsp, hge]
          right
          rw [hB, hU]
        | some ec =>
          obtain ⟨entries, cache₁⟩ := ec
          obtain ⟨hpv, hc₁⟩ := getEntries_none_inv provider path entries cache₁ hge
          subst hc₁
          rw [searchDirectory_cons_entries provider ci none seg rest path results
            none pred entries none (maxHit_none results) hsp hge] at hlen ⊢
          rw [searchDirectory_cons_entries provider ci (some k) seg rest path results
            none pred entries none (by simpa using hk) hsp hge]
          have hEc := searchEntries_cap_corr k rest.isEmpty pred path
            (fun p r c => searchDirectory provider ci none rest p r c)
            (fun p r c => searchDirectory provider ci (some k) rest p r c)
            (fun p r => searchDirectory_cache_none provider ci none rest p r)
            (fun p r c => searchDirectory_mono provider ci none rest p r c)
            (fun p r c rr cc => searchDirectory_noflag provider ci rest p r c rr cc)
            (fun p r hle => ih p r hle)
            entries results
          cases hEU : searchEntries none rest.isEmpty pred path
              (fun p r c => searchDirectory provider ci none rest p r c)
              entries results none with
          | ok r c b =>
            have hc : c = none := by
              have := searchEntries_cache_none none rest.isEmpty pred path
                (fun p r c => searchDirectory provider ci none rest p r c)
                (fun p r => searchDirectory_cache_none provider ci none rest p r)
                entries results
              rw [hEU] at this
              exact this
            subst hc
            cases b with
            | true =>
              exact absurd hEU (searchEntries_noflag rest.isEmpty pred path
                (fun p r c => searchDirectory provider ci none rest p r c)
                (fun p r c rr cc => searchDirectory_noflag provider ci rest p r c rr cc)
                entries results none r none)
            | false =>
              rw [hEU] at hlen
              have hlen' : r.length ≤ k := hlen
              rcases hEc (by rw [hEU]; exact hlen') with ⟨hBE, hkleE⟩ | hBEU
              · rw [hEU] at hBE hkleE
                rw [hBE]
                left
                exact ⟨rfl, hkleE⟩
              · rw [hEU] at hBEU
                rw [hBEU]
                right
                rfl
          | thrown r c =>
            have hc : c = none := by
              have := searchEntries_cache_none none rest.isEmpty pred path
                (fun p r c => searchDirectory provider ci none rest p r c)
                (fun p r => searchDirectory_cache_none provider ci none rest p r)
                entries results
              rw [hEU] at this
              exact this
            subst hc
            rw [hEU] at hlen
            have hlen' : r.length ≤ k := hlen
            rcases hEc (by rw [hEU]; exact hlen') with ⟨hBE, hkleE⟩ | hBEU
            · rw [hEU] at hBE hkleE
              rw [hBE]
              left
              exact ⟨rfl, hkleE⟩
            · rw [hEU] at hBEU
              rw [hBEU]
              right
              rfl

end RelSrc

namespace RelSrc

/-- C5: with `maxResults = k`, `findFilesWithGlob` returns at most `k`
results; and whenever `k` is at least the total number of matches of the
uncapped call, the capped call returns exactly the same list as the call with
`maxResults` unspecified. -/
theorem claim5_max_results (provider : Provider) (ci : Bool)
    (root pattern : String) (k : Nat) :
    (∀ l, findFilesWithGlob provider ci (some root) pattern (some k) none = some l →
      l.length ≤ k) ∧
    (∀ L, findFilesWithGlob provider ci (some root) pattern none none = some L →
      L.length ≤ k →
      findFilesWithGlob provider ci (some root) pattern (some k) none = some L) := by
  constructor
  · intro l hl
    rw [findFilesWithGlob] at hl
    by_cases hp : pattern = ""
    · rw [if_pos hp] at hl
      cases hl
      simp
    · rw [if_neg hp] at hl
      by_cases hn : normalizePattern pattern = ""
      · simp only [hn, if_pos rfl] at hl
        simp at hl
        subst hl
        simp
      · rw [if_neg hn] at hl
        cases hres : searchDirectory provider ci (some k)
            (splitSegs (normalizePattern pattern)) root [] none with
        | ok r c b =>
          rw [hres] at hl
          have hlr : l = r := by simpa using hl.symm
          subst hlr
          have hb := searchDirectory_bound provider ci k
            (splitSegs (normalizePattern pattern)) root [] none (by simp)
          rw [hres] at hb
          simpa [SRes.res] using hb
        | thrown r c =>
          rw [hres] at hl
          cases hl
  · intro L hL hlen
    rw [findFilesWithGlob] at hL ⊢
    by_cases hp : pattern = ""
    · rw [if_pos hp] at hL ⊢
      exact hL
    · rw [if_neg hp] at hL ⊢
      by_cases hn : normalizePattern pattern = ""
      · simp only [hn, if_pos rfl] at hL ⊢
        exact hL
      · rw [if_neg hn] at hL ⊢
        cases hres : searchDirectory provider ci none
            (splitSegs (normalizePattern pattern)) root [] none with
        | ok r c b =>
          rw [hres] at hL
          have hLr : L = r := by simpa using hL.symm
          subst hLr
          have hc : c = none := by
            have := searchDirectory_cache_none provider ci none
              (splitSegs (normalizePattern pattern)) root []
            rw [hres] at this
            exact this
          subst hc
          cases b with
          | true =>
            exact absurd hres (searchDirectory_noflag provider ci
              (splitSegs (normalizePattern pattern)) root [] none L none)
          | false =>
            rcases searchDirectory_cap_corr provider ci k
                (splitSegs (normalizePattern pattern)) root []
                (by rw [hres]; exact hlen) with ⟨hB, _⟩ | hBU
            · rw [hres] at hB
              rw [hB]
              rfl
            · rw [hres] at hBU
              rw [hBU]
        | thrown r c =>
          rw [hres] at hL
          cases hL

/-- Witness for C5 on the concrete tree: the capped search returns at most 2
results, and with the cap 2 (at least the total) it returns exactly the
uncapped list. -/
theorem claim5_max_results_witness :
    (["root/a.js", "root/b.js"] : List String).length ≤ 2 ∧
      findFilesWithGlob fsGood false (some "root") "*.js" (some 2) none =
        some ["root/a.js", "root/b.js"] := by
  constructor
  · exact (claim5_max_results fsGood false "root" "*.js" 2).1
      ["root/a.js", "root/b.js"] (by decide)
  · exact (claim5_max_results fsGood false "root" "*.js" 2).2
      ["root/a.js", "root/b.js"] (by decide) (by decide)

end RelSrc
